import Mathlib

/-!
# Sparkground — verification of the spec's claims against the source

Shallow embedding of the Sparkground core (Scheme-like visual editor engine):

* `src/typechecker/type.ts` (the version importing `TypeVarSlot`/`ForallType`,
  shipped as `src/unnamed/part_001`) and `src/typechecker/type-substitution.ts`
  — the type representation, `typeSubstitute` and `typeVarOccurs`;
* `src/editor/trees/trees.ts` and `src/editor/trees/mutate.ts`
  (shipped as `src/unnamed/part_000`) — the expression forest and the
  structural mutation engine (`moveExprInTree`, `copyExprInTree`, `orphanExpr`);
* `src/evaluator/evaluate.ts` (shipped inside `src/evaluator/evaluate.test.ts`)
  and `src/editor/library/environments.ts` — the call-by-value evaluator,
  environments and cells.

Modelling conventions:

* JavaScript objects are modelled as inductive values.  Mutable `Cell`s are
  modelled as addresses into an explicit heap (`EvalState.heap`), so that the
  sharing of cells between environments and closures is preserved.
* TypeScript `throw` is modelled with `Except`/`Option`; for the mutation
  engine, which mutates before it may throw, operations return
  `Option MutErr × ForestState` so the partially-mutated state is kept.
* The source's optional `of?: Type[]` field is read by every function in
  scope through `type.of ?? []` (or `typeParams`), so it is modelled as a
  plain list with `[]` for "absent".
-/

namespace Sparkground

/-! ## Type system: `type.ts` (part_001)

The runtime values of `Type` are plain tagged JS objects, discriminated
structurally: `isTypeVar` checks for a `var` field, `isForallType` for a
`forall` field, `isConcreteType` for a `tag` field and `isTypeVarSlot` for
`kind === "type-name-hole" | "type-name-binding"`.  `ForallType.forall` is
declared `TypeVarSlot[]`, but `isTypeVarBoundBy` dynamically tests its
elements with `isTypeVar`, so the binder list is modelled as a list of
arbitrary `Ty` values (the runtime union), letting both well-typed binder
lists (slots) and `TypeVar`-shaped entries be expressed. -/

inductive Ty where
  /-- `SimpleConcreteType`/`VariadicFunctionType`: `{ tag, of? }`.  The
  variadic bounds `minArgCount`/`maxArgCount` are carried by no function in
  scope and are omitted. -/
  | concrete (tag : String) (of : List Ty)
  /-- `ForallType`: `{ forall, body }`. -/
  | forallT (binders : List Ty) (body : Ty)
  /-- `TypeVar`: `{ var }`. -/
  | typeVar (name : String)
  /-- `TypeNameHole`: `{ kind: "type-name-hole" }`. -/
  | typeNameHole
  /-- `TypeNameBinding`: `{ kind: "type-name-binding", id }`. -/
  | typeNameBinding (id : String)
  deriving Repr

namespace Ty

/-- `isTypeVar(type)`: `"var" in type`. -/
def isTypeVar : Ty → Bool
  | .typeVar _ => true
  | _ => false

/-- `isTypeVarSlot(type)`: `isTypeNameHole(type) || isTypeNameBinding(type)`. -/
def isTypeVarSlot : Ty → Bool
  | .typeNameHole => true
  | .typeNameBinding _ => true
  | _ => false

/-- `isForallType(type)`: `"forall" in type`. -/
def isForallType : Ty → Bool
  | .forallT _ _ => true
  | _ => false

/-- `isConcreteType(type)`: `"tag" in type`. -/
def isConcreteType : Ty → Bool
  | .concrete _ _ => true
  | _ => false

/-- `isTypeVarBoundBy(typeVarName, forallType)`:
`forallType.forall.some((slot) => isTypeVar(slot) && slot.var === typeVarName)`.
Note that a `TypeVarSlot` (hole or name-binding) never has a `var` field, so
the test can only succeed on `TypeVar`-shaped entries of the binder list. -/
def isTypeVarBoundBy (typeVarName : String) (binders : List Ty) : Bool :=
  binders.any fun slot =>
    match slot with
    | .typeVar v => v == typeVarName
    | _ => false

/-- `typeParams(type)` from `type.ts`. -/
def typeParams : Ty → List Ty
  | .typeVar _ => []
  | .typeNameHole => []
  | .typeNameBinding _ => []
  | .forallT _ body => typeParams body
  | .concrete _ of => of

end Ty

/-! ### `type-substitution.ts` -/

/-- `TypeSubstitution = Record<string, Type>`: modelled as an association
list with distinct keys; `sub[name]` is the first matching entry. -/
abbrev TypeSubstitution := List (String × Ty)

mutual

/-- `typeSubstitute(type, sub)` from `type-substitution.ts`, branch for
branch: `TypeVarSlot`s are returned as-is; a `TypeVar` is looked up in the
mapping (`sub[type.var] ?? type`); a `ForallType` keeps its binder list and
substitutes in its body with the *unchanged* mapping; a concrete type maps
the substitution over `typeParams(type)` (which is `type.of ?? []` for a
concrete type; the source re-wraps as `{tag, of}` or `{tag}`, both of which
collapse to `of : List Ty` here). -/
def typeSubstitute : Ty → TypeSubstitution → Ty
  | t@(.typeNameHole), _ => t
  | t@(.typeNameBinding _), _ => t
  | t@(.typeVar v), sub => ((sub.lookup v).getD t)
  | .forallT binders body, sub => .forallT binders (typeSubstitute body sub)
  | .concrete tag of, sub => .concrete tag (typeSubstituteList of sub)

/-- `typeParams(type).map((typeParam) => typeSubstitute(typeParam, sub))`. -/
def typeSubstituteList : List Ty → TypeSubstitution → List Ty
  | [], _ => []
  | c :: cs, sub => typeSubstitute c sub :: typeSubstituteList cs sub

end

mutual

/-- `typeVarOccurs(typeVarName, type)` from `type-substitution.ts`.  The
source tests, in order, `isTypeVar`, `isForallType`, `isConcreteType`,
`isTypeNameHole`, and otherwise throws `"invalid type passed to
typeVarOccurs"` — a `TypeNameBinding` falls through every test (it has
neither `var`, `forall` nor `tag`, and its `kind` is not `"type-name-hole"`),
so the function throws on it; `none` models the throw.  `type.of.some(...)`
short-circuits on the first `true` child, so children after it are not
evaluated (and cannot throw). -/
def typeVarOccurs (typeVarName : String) : Ty → Option Bool
  | .typeVar v => some (v == typeVarName)
  | .forallT binders body =>
      if Ty.isTypeVarBoundBy typeVarName binders then
        -- Shadowed
        some false
      else typeVarOccurs typeVarName body
  | .concrete _ of => typeVarOccursSome typeVarName of
  | .typeNameHole => some false
  | .typeNameBinding _ => none

/-- `(type.of ?? []).some((child) => typeVarOccurs(typeVarName, child))`
with JS short-circuiting and exception propagation. -/
def typeVarOccursSome (typeVarName : String) : List Ty → Option Bool
  | [] => some false
  | c :: cs =>
      match typeVarOccurs typeVarName c with
      | none => none
      | some true => some true
      | some false => typeVarOccursSome typeVarName cs

end

/-- The built-in `Number` type, `{ tag: "Number" }`. -/
def NumberTy : Ty := .concrete "Number" []

mutual

/-- Helper predicate: a type value on which `typeVarOccurs` cannot throw,
i.e. one with no `TypeNameBinding` outside binder lists (binder lists are
never recursed into). -/
def wfTy : Ty → Bool
  | .typeVar _ => true
  | .typeNameHole => true
  | .typeNameBinding _ => false
  | .forallT _ body => wfTy body
  | .concrete _ of => wfTyList of

def wfTyList : List Ty → Bool
  | [] => true
  | c :: cs => wfTy c && wfTyList cs

end

/-- On throw-free types, `typeVarOccurs` returns a value. -/
theorem typeVarOccurs_isSome (n : String) :
    ∀ t : Ty, wfTy t = true → (typeVarOccurs n t).isSome = true := by
  apply typeVarOccurs.induct n
    (motive_1 := fun t => wfTy t = true → (typeVarOccurs n t).isSome = true)
    (motive_2 := fun l => wfTyList l = true → (typeVarOccursSome n l).isSome = true)
  · intro v _
    simp [typeVarOccurs]
  · intro binders body h _
    simp [typeVarOccurs, h]
  · intro binders body h ih hwf
    rw [wfTy] at hwf
    simp [typeVarOccurs, h, ih hwf]
  · intro tag of ih hwf
    rw [wfTy] at hwf
    simpa [typeVarOccurs] using ih hwf
  · intro _
    simp [typeVarOccurs]
  · intro id hwf
    rw [wfTy] at hwf
    exact absurd hwf (by simp)
  · intro _
    simp [typeVarOccursSome]
  · intro c cs ho ihc hwf
    rw [wfTyList, Bool.and_eq_true] at hwf
    have := ihc hwf.1
    rw [ho] at this
    simp at this
  · intro c cs ho _ _
    simp [typeVarOccursSome, ho]
  · intro c cs ho _ ihcs hwf
    rw [wfTyList, Bool.and_eq_true] at hwf
    simpa [typeVarOccursSome, ho] using ihcs hwf.2

/-- A successful association-list lookup comes from a member pair. -/
theorem lookup_mem_pair {l : List (String × Ty)} {a : String} {b : Ty}
    (h : l.lookup a = some b) : (a, b) ∈ l := by
  induction l with
  | nil => simp [List.lookup] at h
  | cons p l ih =>
    obtain ⟨k, v⟩ := p
    rw [List.lookup] at h
    split at h
    · obtain rfl : v = b := by injection h
      have : k = a := by
        rename_i hk
        exact (eq_of_beq hk).symm
      subst this
      exact List.mem_cons_self _ _
    · exact List.mem_cons_of_mem _ (ih h)

/-- Key semantic law of the (amended) substitution behaviour: substituting a
mapping that contains `n`, whose values are throw-free and do not contain an
occurrence of `n`, removes every occurrence of `n` — including occurrences
under `ForallType` binders, since `typeSubstitute` recurses into binder
bodies with the unchanged mapping. -/
theorem typeSubstitute_eliminates (n : String) (sub : TypeSubstitution)
    (hn : (sub.lookup n).isSome = true)
    (hvals : ∀ p ∈ sub, wfTy p.2 = true ∧ typeVarOccurs n p.2 = some false) :
    ∀ t : Ty, wfTy t = true → typeVarOccurs n (typeSubstitute t sub) = some false := by
  intro t
  refine typeSubstitute.induct
      (motive_1 := fun t _ => wfTy t = true →
        typeVarOccurs n (typeSubstitute t sub) = some false)
      (motive_2 := fun l _ => wfTyList l = true →
        typeVarOccursSome n (typeSubstituteList l sub) = some false)
      ?_ ?_ ?_ ?_ ?_ ?_ ?_ t sub
  · intro _ _
    simp [typeSubstitute, typeVarOccurs]
  · intro id _ hwf
    rw [wfTy] at hwf
    exact absurd hwf (by simp)
  · intro v _ _
    rw [typeSubstitute]
    rcases hl : sub.lookup v with _ | w
    · have hvn : v ≠ n := by
        rintro rfl
        rw [hl] at hn
        simp at hn
      simp [typeVarOccurs, hvn]
    · have hmem : (v, w) ∈ sub := lookup_mem_pair hl
      simpa using (hvals (v, w) hmem).2
  · intro binders body _ ih hwf
    rw [wfTy] at hwf
    rw [typeSubstitute, typeVarOccurs]
    split
    · rfl
    · exact ih hwf
  · intro tag of _ ih hwf
    rw [wfTy] at hwf
    rw [typeSubstitute, typeVarOccurs]
    exact ih hwf
  · intro _ _
    simp [typeSubstituteList, typeVarOccursSome]
  · intro c cs _ ihc ihcs hwf
    rw [wfTyList, Bool.and_eq_true] at hwf
    rw [typeSubstituteList, typeVarOccursSome, ihc hwf.1]
    exact ihcs hwf.2

/-- C2 (counterexample): `typeSubstitute` does **not** leave
`ForallType`-bound variables untouched — substituting `{a: Number}` into
`Forall([a], TypeVar("a"))` replaces the body with `Number`, whether the
binder entry `[a]` is read as the well-typed `TypeVarSlot`
(`TypeNameBinding "a"`) or as a `TypeVar`-shaped entry.  The claim requires
the body `TypeVar("a")` to be left unchanged. -/
theorem typeSubstitute_captures_counterexample :
    typeSubstitute (.forallT [.typeNameBinding "a"] (.typeVar "a")) [("a", NumberTy)]
        = .forallT [.typeNameBinding "a"] NumberTy ∧
    typeSubstitute (.forallT [.typeVar "a"] (.typeVar "a")) [("a", NumberTy)]
        = .forallT [.typeVar "a"] NumberTy ∧
    Ty.forallT [Ty.typeNameBinding "a"] NumberTy
        ≠ Ty.forallT [Ty.typeNameBinding "a"] (Ty.typeVar "a") := by
  refine ⟨rfl, rfl, ?_⟩
  simp [NumberTy]

/-- C2 (amended): `typeSubstitute(type, sub)` replaces each `TypeVar` whose
name is a key of `sub` with the mapped type, recursing structurally, and
leaves `TypeVarSlot`s and `ForallType` binder lists untouched — but it does
**not** stop at binders: a `ForallType` body is substituted with the
unchanged mapping, so occurrences bound by an enclosing `ForallType` of the
same name are replaced as well (capture).  Consequently, substituting a
mapping that contains `n` and whose values are free of `n` eliminates every
occurrence of `n` from any throw-free type. -/
theorem typeSubstitute_amended (n : String) (sub : TypeSubstitution) (t : Ty)
    (hwf : wfTy t = true) (hn : (sub.lookup n).isSome = true)
    (hvals : ∀ p ∈ sub, wfTy p.2 = true ∧ typeVarOccurs n p.2 = some false) :
    typeVarOccurs n (typeSubstitute t sub) = some false ∧
    (∀ (binders : List Ty) (body : Ty),
      typeSubstitute (.forallT binders body) sub = .forallT binders (typeSubstitute body sub)) ∧
    typeSubstitute (.typeVar n) sub = (sub.lookup n).getD (.typeVar n) ∧
    typeSubstitute .typeNameHole sub = .typeNameHole := by
  refine ⟨typeSubstitute_eliminates n sub hn hvals t hwf, ?_, rfl, rfl⟩
  intro binders body
  rw [typeSubstitute]

/-- Witness for `typeSubstitute_amended` at `t = TypeVar "b"`,
`sub = {a: Number}`. -/
theorem typeSubstitute_amended_witness :
    typeVarOccurs "a" (typeSubstitute (.typeVar "b") [("a", NumberTy)]) = some false :=
  (typeSubstitute_amended "a" [("a", NumberTy)] (.typeVar "b") (by decide)
    (by decide)
    (by intro p hp
        simp only [List.mem_singleton] at hp
        subst hp
        exact ⟨rfl, rfl⟩)).1

/-- C3: `typeVarOccurs` fails to treat names rebound by an enclosing
`ForallType` as shadowed when the binder list holds the declared
`TypeVarSlot` values: `isTypeVarBoundBy` tests binder entries with
`isTypeVar` (`"var" in slot`), which no `TypeVarSlot` (hole or
name-binding) satisfies, so the `// Shadowed` branch never fires on
well-typed binder lists and `occurs("a", Forall([a], TypeVar("a")))`
returns `true`, not `false` as the claim (and the source's own `// Shadowed`
comment) requires.  Only a `TypeVar`-shaped binder entry — which the
declared type `TypeVarSlot[]` of `forall` rules out — triggers shadowing. -/
theorem typeVarOccurs_shadowing_broken :
    typeVarOccurs "a" (.forallT [.typeNameBinding "a"] (.typeVar "a")) = some true ∧
    typeVarOccurs "a" (.forallT [.typeNameHole] (.typeVar "a")) = some true ∧
    typeVarOccurs "a" (.forallT [.typeVar "a"] (.typeVar "a")) = some false :=
  ⟨rfl, rfl, rfl⟩

/-! ## Expression forest: `trees.ts` and `mutate.ts` (part_000)

Modelled from the spec: `ast.ts` (`Expr`, `hole`, `isHole`, `isSExpr`,
`childAtIndex`, `setChildAtIndex`, `TreeIndexPath`) is not under `src/`;
only its callers are.  Per spec §3, an `Expr` is either a composite kind
with an ordered, fully-populated list of child slots, a non-composite
leaf, or the distinguished hole; the mutation engine only distinguishes
these three shapes, so leaves are modelled opaquely by a label.

Object identity (`===`), which the mutation engine uses to compare
resolved nodes, is translated to the value model using the spec's
ownership invariants (§3, invariants 1–2: no `Expr` node is reachable
from two `Tree`s, and, trees being finite and acyclic, no node is
reachable from itself at a non-empty path):

* two resolved nodes are identical iff they come from the same `Tree`
  (same id) at the same index path;
* a resolved node is identical to a tree's root iff its path is empty.

In-place mutation of a shared node object is translated by tracking the
current root value of each involved tree object through the steps of an
operation, in source order. -/

inductive MExpr where
  /-- A non-composite, non-hole `Expr` (literal, `var`, `name-binding`, …),
  opaque to the mutation engine. -/
  | atom (s : String)
  /-- The distinguished hole. -/
  | hole
  /-- A composite `Expr`: its ordered child slots. -/
  | sexpr (children : List MExpr)
  deriving Repr

/-- `isHole(expr)`. -/
def isHole : MExpr → Bool
  | .hole => true
  | _ => false

/-- `isSExpr(expr)`: the node has child slots. -/
def isSExpr : MExpr → Bool
  | .sexpr _ => true
  | _ => false

/-- `exprForIndexPathInTree` (mutate.ts lines 119–129), resolving a path
against a root: at each step the current node must be composite and the
index in range (`childAtIndex`), else the source throws
`"invalid index path for tree"` (`none` here). -/
def resolveE : MExpr → List Nat → Option MExpr
  | e, [] => some e
  | .sexpr cs, i :: p =>
      match cs[i]? with
      | some c => resolveE c p
      | none => none
  | _, _ :: _ => none

/-- `setChildAtIndex` lifted through a path: replace the node at `p` in
`r` by `v`, leaving `r` unchanged where the path does not resolve. -/
def setAtE : MExpr → List Nat → MExpr → MExpr
  | _, [], v => v
  | .sexpr cs, i :: p, v =>
      match cs[i]? with
      | some c => .sexpr (cs.set i (setAtE c p v))
      | none => .sexpr cs
  | e, _ :: _, _ => e

/-- `p` is an ancestor-or-equal index path of `q` (a list prefix). -/
def isAncestorPath : List Nat → List Nat → Bool
  | [], _ => true
  | _ :: _, [] => false
  | a :: p, b :: q => a == b && isAncestorPath p q

/-- `Point` from `trees.ts` (opaque placement metadata). -/
structure Point where
  x : Int
  y : Int
  deriving Repr, DecidableEq

/-- `Tree` from `trees.ts`.  Ids are `` `${++nextID}` `` — decimal strings
of a monotone counter, modelled by the counter value itself; `location` is
optional because `mutate.ts` calls `newTree(destination)` without one. -/
structure Tree where
  id : Nat
  root : MExpr
  location : Option Point
  deriving Repr

/-- The module-level mutable state of `trees.ts`: `trees_` and `nextID`. -/
structure ForestState where
  trees : List Tree
  nextID : Nat
  deriving Repr

/-- The initial state: `trees_ = []`, `nextID = 0`. -/
def initialForest : ForestState := ⟨[], 0⟩

/-- `newTree(root, location)`: assigns the next id and appends. -/
def newTree (st : ForestState) (root : MExpr) (location : Option Point) :
    Tree × ForestState :=
  let t : Tree := ⟨st.nextID + 1, root, location⟩
  (t, ⟨st.trees ++ [t], st.nextID + 1⟩)

/-- `removeTree(tree)`: `trees_ = trees_.filter((t) => t.id !== tree.id)`. -/
def removeTree (st : ForestState) (id : Nat) : ForestState :=
  ⟨st.trees.filter (fun t => t.id ≠ id), st.nextID⟩

/-- Mutation of a tree object's root, seen through the forest: every forest
entry that is the same object (same id) shows the new root. -/
def updRoot (st : ForestState) (id : Nat) (r : MExpr) : ForestState :=
  ⟨st.trees.map (fun t => if t.id = id then { t with root := r } else t), st.nextID⟩

/-- Lookup of a tree's current root by id (`treeByID(...).root`). -/
def treeRootById (st : ForestState) (id : Nat) : Option MExpr :=
  (st.trees.find? (fun t => t.id == id)).map Tree.root

/-! ### C9: id uniqueness across `newTree`/`removeTree` sessions -/

/-- A session operation on the forest: `newTree` or `removeTree`. -/
inductive ForestOp where
  | create (root : MExpr) (location : Option Point)
  | remove (id : Nat)

/-- Run a session from a given state, collecting every id assigned by
`newTree` (in order). -/
def runForestOps : ForestState × List Nat → List ForestOp → ForestState × List Nat
  | acc, [] => acc
  | (st, ids), .create r l :: ops =>
      let (t, st') := newTree st r l
      runForestOps (st', ids ++ [t.id]) ops
  | (st, ids), .remove id :: ops => runForestOps (removeTree st id, ids) ops

/-- Invariant carried through a session: all assigned ids and all forest
ids are bounded by the counter, assigned ids are distinct, forest ids are
assigned... (the part needed for C9: distinctness and the bound). -/
def forestInv (st : ForestState) (ids : List Nat) : Prop :=
  ids.Nodup ∧ (∀ a ∈ ids, a ≤ st.nextID) ∧
    (st.trees.map Tree.id).Nodup ∧ (∀ t ∈ st.trees, t.id ≤ st.nextID)

theorem forestInv_step (st : ForestState) (ids : List Nat) (op : ForestOp)
    (h : forestInv st ids) :
    forestInv (runForestOps (st, ids) [op]).1 (runForestOps (st, ids) [op]).2 := by
  obtain ⟨h1, h2, h3, h4⟩ := h
  cases op with
  | create r l =>
      refine ⟨?_, ?_, ?_, ?_⟩
      · simp only [runForestOps, newTree]
        rw [List.nodup_append]
        refine ⟨h1, List.nodup_singleton _, ?_⟩
        intro a ha hb
        have := h2 a ha
        simp only [List.mem_singleton] at hb
        omega
      · intro a ha
        simp only [runForestOps, newTree, List.mem_append, List.mem_singleton] at ha ⊢
        rcases ha with ha | ha
        · have := h2 a ha; omega
        · omega
      · simp only [runForestOps, newTree, List.map_append]
        rw [List.nodup_append]
        refine ⟨h3, by simp, ?_⟩
        intro a ha hb
        simp only [List.mem_map] at ha
        obtain ⟨t, ht, rfl⟩ := ha
        have := h4 t ht
        simp only [List.map_cons, List.map_nil, List.mem_singleton] at hb
        omega
      · intro t ht
        simp only [runForestOps, newTree, List.mem_append, List.mem_singleton] at ht ⊢
        rcases ht with ht | ht
        · have := h4 t ht; omega
        · subst ht; simp
  | remove id =>
      refine ⟨h1, fun a ha => h2 a ha, ?_, ?_⟩
      · simp only [runForestOps, removeTree]
        exact h3.sublist ((List.filter_sublist _).map _)
      · intro t ht
        simp only [runForestOps, removeTree] at ht
        exact h4 t (List.mem_of_mem_filter ht)

theorem forestInv_run (ops : List ForestOp) :
    ∀ st ids, forestInv st ids →
      forestInv (runForestOps (st, ids) ops).1 (runForestOps (st, ids) ops).2 := by
  induction ops with
  | nil => intro st ids h; exact h
  | cons op ops ih =>
      intro st ids h
      have hstep := forestInv_step st ids op h
      cases op with
      | create r l =>
          simp only [runForestOps, newTree] at hstep ⊢
          exact ih _ _ hstep
      | remove id =>
          simp only [runForestOps] at hstep ⊢
          exact ih _ _ hstep

/-- C9: over every sequence of `newTree`/`removeTree` operations starting
from the initial empty forest, the ids assigned by `newTree` are pairwise
distinct (so an id is never assigned again, in particular not after its
tree is removed — `removeTree` never decrements the counter), and at every
point the forest's trees carry pairwise distinct ids. -/
theorem forest_ids_unique (ops : List ForestOp) :
    (runForestOps (initialForest, []) ops).2.Nodup ∧
      ((runForestOps (initialForest, []) ops).1.trees.map Tree.id).Nodup := by
  have h := forestInv_run ops initialForest []
    ⟨List.nodup_nil, by simp, by simp [initialForest], by simp [initialForest]⟩
  exact ⟨h.1, h.2.2.1⟩

/-! ### Structural mutation engine: `mutate.ts` (part_000 lines 42–117)

Each operation takes a `TreeIndexPath` = (tree object, index path) for
source/destination; here the tree object is passed as a `Tree` value,
assumed to denote the forest entry with the same id (the caller obtains it
from the forest).  Identity comparisons (`===`) between resolved nodes are
translated per the header comment: same tree id and same path. -/

/-- Errors thrown by the mutation engine: `"invalid index path for tree"`. -/
inductive MutErr where
  | invalidPath
  deriving Repr, DecidableEq

/-- The root of the destination tree *object* as seen after the source
detachment step of `moveExprInTree`/`copyExprInTree`: if source and destination are the
same tree object, the detachment (slot set to hole) is visible through it;
removal of a whole tree from the forest does not alter the object. -/
def dstRootView (srcT : Tree) (srcP : List Nat) (dstT : Tree) : MExpr :=
  if srcT.id = dstT.id then
    (if srcP = [] then srcT.root else setAtE srcT.root srcP .hole)
  else dstT.root

/-- The source-detachment step shared by `moveExprInTree` (lines 62–69) and
`copyExprInTree` (lines 85–92): if the source is its tree's root the whole
tree is removed from the forest, otherwise the source's slot is set to
hole.  (For a non-empty resolvable path the parent always resolves to a
composite node, so the defensive `isSExpr(sourceParent)` throw cannot
fire.) -/
def sourceDetach (st : ForestState) (srcT : Tree) (srcP : List Nat) : ForestState :=
  if srcP = [] then removeTree st srcT.id
  else updRoot st srcT.id (setAtE srcT.root srcP .hole)

/-- `moveExprInTree(source, destination)` (mutate.ts lines 42–73), step for
step in source order:

1. no-op when `destinationIndexPath.length < 2` (line 46);
2. resolve source, then destination and its parent (throws leave the
   forest untouched — no mutation has happened yet);
3. no-op when the destination is the same node as the source
   (same tree id and path) or the destination tree's root (empty path,
   impossible at length ≥ 2; kept as written) (line 60);
4. detach the source (lines 62–69);
5. write the source node into the destination parent *object* (line 71):
   the write is visible in the destination tree unless that parent was
   itself detached in step 4 (same tree, source path a proper prefix of
   the destination path) — in that case it mutates an unreachable node;
6. promote the displaced destination object to a new tree unless it is a
   hole (line 72); its content is taken after step 4, which reaches inside
   it exactly when the destination path is a proper prefix of the source
   path in the same tree. -/
def moveExprInTree (st : ForestState) (srcT : Tree) (srcP : List Nat)
    (dstT : Tree) (dstP : List Nat) : Option MutErr × ForestState :=
  if dstP.length < 2 then (none, st)
  else
    match resolveE srcT.root srcP with
    | none => (some .invalidPath, st)
    | some src =>
      match resolveE dstT.root dstP with
      | none => (some .invalidPath, st)
      | some dst =>
        match resolveE dstT.root dstP.dropLast with
        | none => (some .invalidPath, st)
        | some dstParent =>
          if ¬ (isSExpr dstParent = true) then (some .invalidPath, st)
          else if (srcT.id = dstT.id ∧ srcP = dstP) ∨ dstP = [] then (none, st)
          else
            let st1 := sourceDetach st srcT srcP
            let dstRoot1 := dstRootView srcT srcP dstT
            let dstRoot2 :=
              if srcT.id = dstT.id ∧ srcP ≠ [] ∧ isAncestorPath srcP dstP = true
              then dstRoot1
              else setAtE dstRoot1 dstP src
            let st2 := updRoot st1 dstT.id dstRoot2
            let promoted :=
              if srcT.id = dstT.id ∧ srcP ≠ [] ∧ isAncestorPath dstP srcP = true
              then (resolveE dstRoot1 dstP).getD dst
              else dst
            let st3 := if isHole dst then st2 else (newTree st2 promoted none).2
            (none, st3)

/-- `copyExprInTree(source, destination)` (mutate.ts lines 75–105), step
for step in source order.  In contrast to `move`, the source is detached
(lines 85–92) *before* the destination is resolved (lines 94–99), so a
destination-side throw leaves the source-side mutation in place, and the
destination is resolved against the already-mutated tree.  The no-op
checks `destination === source || destination === destinationTree.root`
(line 101) compare, by object identity, a node resolved from the mutated
graph with the detached source node resp. the tree's root: the detached
source no longer occurs in the graph, and a root cannot occur at depth
≥ 2 of itself in a finite acyclic tree, so neither identity can hold and
the check is dead; it is therefore not represented.  `cloneDeep(source)`
is a deep value copy — in the value model, `src` itself. -/
def copyExprInTree (st : ForestState) (srcT : Tree) (srcP : List Nat)
    (dstT : Tree) (dstP : List Nat) : Option MutErr × ForestState :=
  if dstP.length < 2 then (none, st)
  else
    match resolveE srcT.root srcP with
    | none => (some .invalidPath, st)
    | some src =>
      let st1 := sourceDetach st srcT srcP
      let dstRoot1 := dstRootView srcT srcP dstT
      match resolveE dstRoot1 dstP with
      | none => (some .invalidPath, st1)
      | some dst =>
        match resolveE dstRoot1 dstP.dropLast with
        | none => (some .invalidPath, st1)
        | some dstParent =>
          if ¬ (isSExpr dstParent = true) then (some .invalidPath, st1)
          else
            let st2 := updRoot st1 dstT.id (setAtE dstRoot1 dstP src)
            let st3 := if isHole dst then st2 else (newTree st2 dst none).2
            (none, st3)

/-- `orphanExpr(location)` (mutate.ts lines 107–117), step for step: the
node and its "parent" (`path.slice(0, -1)`) are resolved; if the parent is
not composite the operation returns (the source's comment reads "expr is
already the root of a tree" — but for the empty path `path.slice(0,-1)` is
again the empty path, so the "parent" is the node itself, and the branch
fires only when the root is not composite).  Otherwise
`setChildAtIndex(exprParent, path.at(-1)!, hole)` runs — for the empty
path `path.at(-1)` is `undefined`, and assignment at an undefined index
changes no declared child slot (modelled from the spec: `setChildAtIndex`
is in the missing `ast.ts`; spec §4.1 defines it only for the fixed
ordered child slots) — and the node, if not a hole, is promoted to a new
tree. -/
def orphanExpr (st : ForestState) (t : Tree) (path : List Nat) :
    Option MutErr × ForestState :=
  match resolveE t.root path with
  | none => (some .invalidPath, st)
  | some expr =>
    match resolveE t.root path.dropLast with
    | none => (some .invalidPath, st)
    | some exprParent =>
      if ¬ (isSExpr exprParent = true) then
        -- expr is already the root of a tree
        (none, st)
      else
        let newRoot := if path = [] then t.root else setAtE t.root path .hole
        let st1 := updRoot st t.id newRoot
        let st2 := if isHole expr then st1 else (newTree st1 expr none).2
        (none, st2)

/-! ### Path and forest lemmas -/

/-- Writing along a resolvable path and re-resolving it yields the written
value. -/
theorem resolveE_setAtE_self (p : List Nat) :
    ∀ (r x v : MExpr), resolveE r p = some x → resolveE (setAtE r p v) p = some v := by
  induction p with
  | nil => intro r x v _; simp [setAtE, resolveE]
  | cons i p ih =>
    intro r x v h
    cases r with
    | atom s => exact absurd h (by simp [resolveE])
    | hole => exact absurd h (by simp [resolveE])
    | sexpr cs =>
      rw [resolveE] at h
      split at h
      case _ c hc =>
        obtain ⟨hi, -⟩ := List.getElem?_eq_some.mp hc
        rw [setAtE, hc, resolveE, List.getElem?_set_self hi]
        exact ih _ x v h
      case _ => exact absurd h (by simp)

/-- Writing along one path does not affect resolution along another path
when neither is an ancestor (prefix) of the other. -/
theorem resolveE_setAtE_unrelated (p : List Nat) :
    ∀ (q : List Nat) (r v : MExpr), isAncestorPath p q = false →
      isAncestorPath q p = false → resolveE (setAtE r p v) q = resolveE r q := by
  induction p with
  | nil => intro q r v hpq _; exact absurd hpq (by simp [isAncestorPath])
  | cons i p ih =>
    intro q r v hpq hqp
    cases q with
    | nil => exact absurd hqp (by simp [isAncestorPath])
    | cons j q =>
      cases r with
      | atom s => simp [setAtE]
      | hole => simp [setAtE]
      | sexpr cs =>
        rw [setAtE]
        split
        case _ c hc =>
          obtain ⟨hi, -⟩ := List.getElem?_eq_some.mp hc
          by_cases hij : i = j
          · subst hij
            rw [isAncestorPath] at hpq hqp
            simp only [beq_self_eq_true, Bool.true_and] at hpq hqp
            rw [resolveE, resolveE, List.getElem?_set_self hi, hc]
            exact ih q c v hpq hqp
          · rw [resolveE, resolveE, List.getElem?_set_ne hij]
        case _ => rfl

/-- Resolution distributes over path concatenation. -/
theorem resolveE_append (p : List Nat) :
    ∀ (q : List Nat) (r : MExpr),
      resolveE r (p ++ q) = (resolveE r p).bind (fun m => resolveE m q) := by
  induction p with
  | nil => intro q r; simp [resolveE]
  | cons i p ih =>
    intro q r
    cases r with
    | atom s => simp [resolveE]
    | hole => simp [resolveE]
    | sexpr cs =>
      rw [List.cons_append, resolveE, resolveE]
      split
      case _ c _ => exact ih q c
      case _ => rfl

/-- A node resolvable at a non-empty path has a composite parent at the
path without its last index, holding it at that index. -/
theorem resolveE_parent (p : List Nat) (hne : p ≠ []) (r x : MExpr)
    (h : resolveE r p = some x) :
    ∃ cs i, p = p.dropLast ++ [i] ∧ resolveE r p.dropLast = some (.sexpr cs) ∧
      cs[i]? = some x := by
  rcases List.eq_nil_or_concat p with rfl | ⟨q, i, rfl⟩
  · exact absurd rfl hne
  · simp only [List.concat_eq_append] at h ⊢
    rw [List.dropLast_concat]
    rw [resolveE_append] at h
    rcases hq : resolveE r q with _ | m
    · rw [hq] at h; exact absurd h (by simp)
    · rw [hq] at h
      simp only [Option.some_bind] at h
      cases m with
      | atom s => exact absurd h (by simp [resolveE])
      | hole => exact absurd h (by simp [resolveE])
      | sexpr cs =>
        rw [resolveE] at h
        split at h
        case _ c hc =>
          rw [resolveE] at h
          obtain rfl : c = x := by injection h
          exact ⟨cs, i, rfl, rfl, hc⟩
        case _ => exact absurd h (by simp)

/-- List-level form of `treeRootById` after `updRoot`: looking up the
updated id yields the new root, provided some tree carries the id. -/
theorem find?_updRoot_self (id : Nat) (r : MExpr) :
    ∀ ts : List Tree, (∃ t ∈ ts, t.id = id) →
      (((ts.map (fun t => if t.id = id then { t with root := r } else t)).find?
        (fun t => t.id == id)).map Tree.root) = some r := by
  intro ts
  induction ts with
  | nil => rintro ⟨t, ht, -⟩; cases ht
  | cons t ts ih =>
    rintro ⟨t0, hmem, hid⟩
    simp only [List.map_cons]
    by_cases ht : t.id = id
    · rw [List.find?_cons_of_pos _ (by simp [ht])]
      simp [ht]
    · rw [if_neg ht, List.find?_cons_of_neg _ (by simp [ht])]
      simp only [List.mem_cons] at hmem
      rcases hmem with rfl | hmem
      · exact absurd hid ht
      · exact ih ⟨t0, hmem, hid⟩

theorem treeRootById_updRoot_self (st : ForestState) (id : Nat) (r : MExpr)
    (h : ∃ t ∈ st.trees, t.id = id) :
    treeRootById (updRoot st id r) id = some r :=
  find?_updRoot_self id r st.trees h

/-- `updRoot` at a different id leaves a lookup unchanged. -/
theorem find?_updRoot_other (id id2 : Nat) (r : MExpr) (h : id ≠ id2) :
    ∀ ts : List Tree,
      (((ts.map (fun t => if t.id = id2 then { t with root := r } else t)).find?
        (fun t => t.id == id)).map Tree.root) =
      ((ts.find? (fun t => t.id == id)).map Tree.root) := by
  intro ts
  induction ts with
  | nil => rfl
  | cons t ts ih =>
    simp only [List.map_cons]
    by_cases ht : t.id = id2
    · rw [if_pos ht,
        List.find?_cons_of_neg _ (by simp only [ht, beq_iff_eq]; exact fun hh => h hh.symm),
        List.find?_cons_of_neg _ (by simp only [ht, beq_iff_eq]; exact fun hh => h hh.symm)]
      exact ih
    · rw [if_neg ht]
      by_cases hti : t.id = id
      · rw [List.find?_cons_of_pos _ (by simp [hti]),
          List.find?_cons_of_pos _ (by simp [hti])]
      · rw [List.find?_cons_of_neg _ (by simp [hti]),
          List.find?_cons_of_neg _ (by simp [hti])]
        exact ih

theorem treeRootById_updRoot_other (st : ForestState) (id id2 : Nat) (r : MExpr)
    (h : id ≠ id2) :
    treeRootById (updRoot st id2 r) id = treeRootById st id :=
  find?_updRoot_other id id2 r h st.trees

/-- Appending a fresh tree does not change lookups at other ids. -/
theorem treeRootById_newTree (st : ForestState) (r : MExpr) (l : Option Point)
    (id : Nat) (h : id ≠ st.nextID + 1) :
    treeRootById (newTree st r l).2 id = treeRootById st id := by
  unfold treeRootById newTree
  simp only [List.find?_append]
  rcases hf : st.trees.find? (fun t => t.id == id) with _ | t
  · rw [hf, Option.none_or,
      List.find?_cons_of_neg _ (by simp only [beq_iff_eq]; exact fun hh => h hh.symm)]
    rfl
  · rw [hf]
    rfl

/-- After `removeTree id`, no tree with that id remains. -/
theorem removeTree_gone (st : ForestState) (id : Nat) :
    ∀ t ∈ (removeTree st id).trees, t.id ≠ id := by
  intro t ht
  unfold removeTree at ht
  simp only [List.mem_filter, decide_eq_true_eq] at ht
  exact ht.2

/-! ### C4, C5, C6 -/

/-- C6: `orphanExpr` at a tree-root location (empty index path) is **not**
a no-op when the root is composite.  For the empty path,
`path.slice(0, -1)` is again the empty path, so the "parent" resolved at
line 109 is the root itself; when the root is an s-expression the
`isSExpr` root-detection branch (line 110, commented "expr is already the
root of a tree") does not fire, and line 116 appends a brand-new `Tree`
whose root is the very same node — the forest changes (and the root is now
owned by two trees, violating the single-ownership invariant).  Only a
non-composite root (atom or hole) takes the intended no-op branch. -/
theorem orphanExpr_composite_root_bug :
    orphanExpr ⟨[⟨1, .sexpr [.atom "x"], none⟩], 1⟩ ⟨1, .sexpr [.atom "x"], none⟩ [] =
      (none, ⟨[⟨1, .sexpr [.atom "x"], none⟩, ⟨2, .sexpr [.atom "x"], none⟩], 2⟩) ∧
    (⟨[⟨1, .sexpr [.atom "x"], none⟩, ⟨2, .sexpr [.atom "x"], none⟩], 2⟩ : ForestState) ≠
      ⟨[⟨1, .sexpr [.atom "x"], none⟩], 1⟩ ∧
    orphanExpr ⟨[⟨1, .atom "y", none⟩], 1⟩ ⟨1, .atom "y", none⟩ [] =
      (none, ⟨[⟨1, .atom "y", none⟩], 1⟩) ∧
    orphanExpr ⟨[⟨1, .hole, none⟩], 1⟩ ⟨1, .hole, none⟩ [] =
      (none, ⟨[⟨1, .hole, none⟩], 1⟩) := by
  refine ⟨rfl, ?_, rfl, rfl⟩
  intro h
  have := congrArg (fun s => s.trees.length) h
  simp at this

/-- C4 (counterexample): `copyExprInTree` is **not** atomic.  With source
`(tree 1, [0])` (tree 1 = `(sexpr [atom "x"])`) and destination
`(tree 2, [0, 0])` (tree 2 = `atom "y"`, so the destination path does not
resolve), the call throws `InvalidPath` — but the source slot has already
been set to a hole, so the forest is *not* "left exactly as it was": the
source mutation (lines 85–92) runs before the destination is resolved
(lines 94–99). -/
theorem copyExprInTree_not_atomic_counterexample :
    copyExprInTree ⟨[⟨1, .sexpr [.atom "x"], none⟩, ⟨2, .atom "y", none⟩], 2⟩
        ⟨1, .sexpr [.atom "x"], none⟩ [0] ⟨2, .atom "y", none⟩ [0, 0] =
      (some .invalidPath, ⟨[⟨1, .sexpr [.hole], none⟩, ⟨2, .atom "y", none⟩], 2⟩) ∧
    (⟨[⟨1, .sexpr [.hole], none⟩, ⟨2, .atom "y", none⟩], 2⟩ : ForestState) ≠
      ⟨[⟨1, .sexpr [.atom "x"], none⟩, ⟨2, .atom "y", none⟩], 2⟩ := by
  refine ⟨rfl, ?_⟩
  intro h
  have := congrArg (fun s => s.trees.head?) h
  simp at this

/-- C4 (amended): `copyExprInTree`'s only check performed *before* any
mutation is the destination-path-length rule — in that case the whole
Forest is untouched, as is when the *source* path fails to resolve.
In every other case the source-side mutation (source slot set to hole, or
the source tree removed when the source is its tree's root) happens
*before* the destination is resolved, so when destination resolution
fails with InvalidPath the Forest keeps the source-side mutation: the
result state is exactly `sourceDetach` of the input state (and the
destination no-op checks of line 101, compared by object identity after
the detachment, can no longer fire at all). -/
theorem copyExprInTree_amended :
    (∀ (st : ForestState) (srcT : Tree) (srcP : List Nat) (dstT : Tree)
        (dstP : List Nat), dstP.length < 2 →
        copyExprInTree st srcT srcP dstT dstP = (none, st)) ∧
    (∀ (st : ForestState) (srcT : Tree) (srcP : List Nat) (dstT : Tree)
        (dstP : List Nat), ¬ dstP.length < 2 →
        resolveE srcT.root srcP = none →
        copyExprInTree st srcT srcP dstT dstP = (some .invalidPath, st)) ∧
    (∀ (st : ForestState) (srcT : Tree) (srcP : List Nat) (dstT : Tree)
        (dstP : List Nat) (src : MExpr), ¬ dstP.length < 2 →
        resolveE srcT.root srcP = some src →
        resolveE (dstRootView srcT srcP dstT) dstP = none →
        copyExprInTree st srcT srcP dstT dstP =
          (some .invalidPath, sourceDetach st srcT srcP)) := by
  refine ⟨?_, ?_, ?_⟩
  · intro st srcT srcP dstT dstP hlen
    rw [copyExprInTree, if_pos hlen]
  · intro st srcT srcP dstT dstP hlen hsrc
    rw [copyExprInTree, if_neg hlen, hsrc]
  · intro st srcT srcP dstT dstP src hlen hsrc hdst
    rw [copyExprInTree, if_neg hlen, hsrc]
    simp only [hdst]

/-- Witness for `copyExprInTree_amended` at the concrete non-atomic
instance of `copyExprInTree_not_atomic_counterexample`. -/
theorem copyExprInTree_amended_witness :
    copyExprInTree ⟨[⟨1, .sexpr [.atom "x"], none⟩, ⟨2, .atom "y", none⟩], 2⟩
        ⟨1, .sexpr [.atom "x"], none⟩ [0] ⟨2, .atom "y", none⟩ [0, 0] =
      (some .invalidPath,
        sourceDetach ⟨[⟨1, .sexpr [.atom "x"], none⟩, ⟨2, .atom "y", none⟩], 2⟩
          ⟨1, .sexpr [.atom "x"], none⟩ [0]) :=
  copyExprInTree_amended.2.2 _ _ _ _ _ (.atom "x") (by decide) rfl rfl

/-- C5 (counterexample): a destination path of length 1 is a silent no-op
(`destinationIndexPath.length < 2`, line 46), although the claim's no-op
conditions (length 0 / destination = source node / destination = root) do
not hold: the destination `(tree 1, [1])` resolves to `atom "b"`, which is
neither the source node (`atom "a"`, at the different path `[0]`) nor the
tree's root, and the path length is 1 ≠ 0.  The claim therefore requires
the move to happen — afterwards the destination should resolve to the
source node and the source slot to a hole — but the Forest is unchanged:
the destination still resolves to `atom "b"` and the source to `atom "a"`. -/
theorem moveExprInTree_length_one_counterexample :
    moveExprInTree ⟨[⟨1, .sexpr [.atom "a", .atom "b"], none⟩], 1⟩
        ⟨1, .sexpr [.atom "a", .atom "b"], none⟩ [0]
        ⟨1, .sexpr [.atom "a", .atom "b"], none⟩ [1] =
      (none, ⟨[⟨1, .sexpr [.atom "a", .atom "b"], none⟩], 1⟩) ∧
    resolveE (.sexpr [.atom "a", .atom "b"]) [1] = some (.atom "b") ∧
    resolveE (.sexpr [.atom "a", .atom "b"]) [0] = some (.atom "a") ∧
    (MExpr.atom "b") ≠ (.atom "a") ∧ ([1] : List Nat).length ≠ 0 := by
  refine ⟨rfl, rfl, rfl, ?_, by simp⟩
  simp

/-! #### Auxiliary state lemmas for the amended move claim -/

theorem sourceDetach_nextID (st : ForestState) (srcT : Tree) (srcP : List Nat) :
    (sourceDetach st srcT srcP).nextID = st.nextID := by
  unfold sourceDetach removeTree updRoot
  split <;> rfl

theorem mem_id_updRoot (st : ForestState) (b : Nat) (r : MExpr) (a : Nat)
    (h : ∃ t ∈ st.trees, t.id = a) :
    ∃ t ∈ (updRoot st b r).trees, t.id = a := by
  obtain ⟨t, hmem, hid⟩ := h
  by_cases hb : t.id = b
  · exact ⟨{ t with root := r }, List.mem_map.mpr ⟨t, hmem, by simp [hb]⟩, hid⟩
  · exact ⟨t, List.mem_map.mpr ⟨t, hmem, by simp [hb]⟩, hid⟩

theorem mem_id_sourceDetach (st : ForestState) (srcT : Tree) (srcP : List Nat)
    (a : Nat) (hno : srcP = [] → a ≠ srcT.id) (h : ∃ t ∈ st.trees, t.id = a) :
    ∃ t ∈ (sourceDetach st srcT srcP).trees, t.id = a := by
  unfold sourceDetach
  split
  case isTrue hp =>
    obtain ⟨t, hmem, hid⟩ := h
    refine ⟨t, ?_, hid⟩
    unfold removeTree
    simp only [List.mem_filter, decide_eq_true_eq]
    exact ⟨hmem, hid ▸ hno hp⟩
  case isFalse hp => exact mem_id_updRoot st srcT.id _ a h

theorem ids_ne_updRoot (st : ForestState) (b : Nat) (r : MExpr) (a : Nat)
    (h : ∀ t ∈ st.trees, t.id ≠ a) :
    ∀ t ∈ (updRoot st b r).trees, t.id ≠ a := by
  intro t ht
  obtain ⟨t0, ht0, rfl⟩ := List.mem_map.mp ht
  by_cases hb : t0.id = b
  · rw [if_pos hb]
    exact h t0 ht0
  · rw [if_neg hb]
    exact h t0 ht0

theorem ids_ne_promote (st : ForestState) (d p : MExpr) (a : Nat)
    (h : ∀ t ∈ st.trees, t.id ≠ a) (hle : a ≤ st.nextID) :
    ∀ t ∈ (if isHole d then st else (newTree st p none).2).trees, t.id ≠ a := by
  split
  · exact h
  · intro t ht
    unfold newTree at ht
    simp only [List.mem_append, List.mem_singleton] at ht
    rcases ht with ht | rfl
    · exact h t ht
    · simp only []
      omega

theorem treeRootById_promote (st : ForestState) (d p : MExpr) (a : Nat)
    (hle : a ≤ st.nextID) :
    treeRootById (if isHole d then st else (newTree st p none).2) a =
      treeRootById st a := by
  split
  · rfl
  · exact treeRootById_newTree st p none a (by omega)

/-- C5 (amended): `moveExprInTree` is a no-op whenever the destination
index path has length < 2 (not only 0), and whenever the destination
resolves to the same node as the source (same tree, same path; the
"destination = destination tree's root" condition is unreachable at path
length ≥ 2).  Conversely, whenever the destination path has length ≥ 2,
both locations resolve, the destination is not the source, and — when the
two locations are in the same tree — neither path is an ancestor of the
other, the move happens: afterwards the source location either no longer
resolves (its tree was removed from the forest, when the source was that
tree's root) or resolves to a hole, and the destination location resolves
to the original source node.  (When one path is an ancestor of the other
in the same tree, the source's in-place mutation detaches or rewrites
nodes the destination write relies on, and the claimed post-state does
not hold; those inputs are excluded here.) -/
theorem moveExprInTree_amended :
    (∀ (st : ForestState) (srcT : Tree) (srcP : List Nat) (dstT : Tree)
        (dstP : List Nat), dstP.length < 2 →
        moveExprInTree st srcT srcP dstT dstP = (none, st)) ∧
    (∀ (st : ForestState) (t : Tree) (p : List Nat) (x : MExpr),
        ¬ p.length < 2 → resolveE t.root p = some x →
        moveExprInTree st t p t p = (none, st)) ∧
    (∀ (st : ForestState) (srcT : Tree) (srcP : List Nat) (dstT : Tree)
        (dstP : List Nat) (src dst : MExpr),
        ¬ dstP.length < 2 →
        resolveE srcT.root srcP = some src →
        resolveE dstT.root dstP = some dst →
        ¬ (srcT.id = dstT.id ∧ srcP = dstP) →
        (srcT.id = dstT.id → srcT = dstT ∧
          isAncestorPath srcP dstP = false ∧ isAncestorPath dstP srcP = false) →
        srcT ∈ st.trees → dstT ∈ st.trees →
        (∀ t ∈ st.trees, t.id ≤ st.nextID) →
        ∃ st', moveExprInTree st srcT srcP dstT dstP = (none, st') ∧
          (srcP = [] → ∀ t ∈ st'.trees, t.id ≠ srcT.id) ∧
          (srcP ≠ [] → ∃ r, treeRootById st' srcT.id = some r ∧
            resolveE r srcP = some .hole) ∧
          (∃ r, treeRootById st' dstT.id = some r ∧ resolveE r dstP = some src)) := by
  refine ⟨?_, ?_, ?_⟩
  · intro st srcT srcP dstT dstP hlen
    rw [moveExprInTree, if_pos hlen]
  · intro st t p x hlen hres
    have hpne : p ≠ [] := by
      intro h; subst h; simp at hlen
    obtain ⟨pcs, pi, -, hpar, -⟩ := resolveE_parent p hpne t.root x hres
    simp only [moveExprInTree, if_neg hlen, hres, hpar]
    rw [if_neg (by simp [isSExpr])]
    simp
  · intro st srcT srcP dstT dstP src dst hlen hsrc hdst hne hsep hmemS hmemD hbound
    have hdne : dstP ≠ [] := by
      intro h; subst h; simp at hlen
    obtain ⟨pcs, pi, -, hpar, -⟩ := resolveE_parent dstP hdne dstT.root dst hdst
    have hnoop : ¬ ((srcT.id = dstT.id ∧ srcP = dstP) ∨ dstP = []) := by
      rintro (h | h)
      · exact hne h
      · exact hdne h
    -- the visible-write and promotion guards are both false under `hsep`
    have hg1 : ¬ (srcT.id = dstT.id ∧ srcP ≠ [] ∧ isAncestorPath srcP dstP = true) := by
      rintro ⟨hid, -, hanc⟩
      rw [(hsep hid).2.1] at hanc
      cases hanc
    have hg2 : ¬ (srcT.id = dstT.id ∧ srcP ≠ [] ∧ isAncestorPath dstP srcP = true) := by
      rintro ⟨hid, -, hanc⟩
      rw [(hsep hid).2.2] at hanc
      cases hanc
    have hrun : moveExprInTree st srcT srcP dstT dstP =
        (none,
          (fun st2 => if isHole dst then st2 else (newTree st2 dst none).2)
            (updRoot (sourceDetach st srcT srcP) dstT.id
              (setAtE (dstRootView srcT srcP dstT) dstP src))) := by
      simp only [moveExprInTree, if_neg hlen, hsrc, hdst, hpar, if_neg hg1, if_neg hg2]
      rw [if_neg (by simp [isSExpr]), if_neg hnoop]
    set st2 := updRoot (sourceDetach st srcT srcP) dstT.id
        (setAtE (dstRootView srcT srcP dstT) dstP src) with hst2
    have hnext2 : st2.nextID = st.nextID := by
      rw [hst2]
      show (sourceDetach st srcT srcP).nextID = st.nextID
      exact sourceDetach_nextID st srcT srcP
    refine ⟨_, hrun, ?_, ?_, ?_⟩
    · -- source was its tree's root: that tree is gone
      intro hp
      have hsame : srcT.id ≠ dstT.id := by
        intro hid
        have := (hsep hid).2.1
        rw [hp] at this
        cases this
      have h1 : ∀ t ∈ (sourceDetach st srcT srcP).trees, t.id ≠ srcT.id := by
        unfold sourceDetach
        rw [if_pos hp]
        intro t ht
        exact removeTree_gone st srcT.id t ht
      have h2 : ∀ t ∈ st2.trees, t.id ≠ srcT.id := by
        rw [hst2]
        exact ids_ne_updRoot _ _ _ _ h1
      exact ids_ne_promote st2 dst dst srcT.id h2
        (by rw [hnext2]; exact hbound srcT hmemS)
    · -- source slot became a hole
      intro hp
      by_cases hid : srcT.id = dstT.id
      · obtain ⟨hteq, hanc1, hanc2⟩ := hsep hid
        subst hteq
        refine ⟨setAtE (dstRootView srcT srcP srcT) dstP src, ?_, ?_⟩
        · rw [treeRootById_promote st2 dst dst srcT.id
            (by rw [hnext2]; exact hbound srcT hmemS)]
          rw [hst2]
          exact treeRootById_updRoot_self _ srcT.id _
            (mem_id_sourceDetach st srcT srcP srcT.id (fun h => absurd h hp)
              ⟨srcT, hmemS, rfl⟩)
        · rw [resolveE_setAtE_unrelated dstP srcP _ src hanc2 hanc1]
          unfold dstRootView
          rw [if_pos rfl, if_neg hp]
          exact resolveE_setAtE_self srcP srcT.root src .hole hsrc
      · refine ⟨setAtE srcT.root srcP .hole, ?_,
          resolveE_setAtE_self srcP srcT.root src .hole hsrc⟩
        rw [treeRootById_promote st2 dst dst srcT.id
          (by rw [hnext2]; exact hbound srcT hmemS)]
        rw [hst2, treeRootById_updRoot_other _ srcT.id dstT.id _ hid]
        unfold sourceDetach
        rw [if_neg hp]
        exact treeRootById_updRoot_self _ srcT.id _ ⟨srcT, hmemS, rfl⟩
    · -- destination resolves to the original source node
      have hview : resolveE (dstRootView srcT srcP dstT) dstP = some dst := by
        unfold dstRootView
        by_cases hid : srcT.id = dstT.id
        · obtain ⟨hteq, hanc1, hanc2⟩ := hsep hid
          subst hteq
          rw [if_pos rfl]
          split
          · exact hdst
          · rw [resolveE_setAtE_unrelated srcP dstP _ _ hanc1 hanc2]
            exact hdst
        · rw [if_neg hid]
          exact hdst
      refine ⟨setAtE (dstRootView srcT srcP dstT) dstP src, ?_,
        resolveE_setAtE_self dstP _ dst src hview⟩
      rw [treeRootById_promote st2 dst dst dstT.id
        (by rw [hnext2]; exact hbound dstT hmemD)]
      rw [hst2]
      refine treeRootById_updRoot_self _ dstT.id _ ?_
      refine mem_id_sourceDetach st srcT srcP dstT.id ?_ ⟨dstT, hmemD, rfl⟩
      intro hp hiddst
      have hid : srcT.id = dstT.id := hiddst.symm
      have := (hsep hid).2.1
      rw [hp] at this
      cases this

/-- Witness for `moveExprInTree_amended`: a concrete move between two
distinct trees, checked against each conclusion. -/
theorem moveExprInTree_amended_witness :
    ∃ st', moveExprInTree
        ⟨[⟨1, .sexpr [.atom "a", .atom "b"], none⟩,
          ⟨2, .sexpr [.atom "c", .sexpr [.atom "d", .atom "e"]], none⟩], 2⟩
        ⟨1, .sexpr [.atom "a", .atom "b"], none⟩ [0]
        ⟨2, .sexpr [.atom "c", .sexpr [.atom "d", .atom "e"]], none⟩ [1, 0] =
      (none, st') ∧
      (([0] : List Nat) = [] → ∀ t ∈ st'.trees, t.id ≠ 1) ∧
      (([0] : List Nat) ≠ [] → ∃ r, treeRootById st' 1 = some r ∧
        resolveE r [0] = some .hole) ∧
      (∃ r, treeRootById st' 2 = some r ∧ resolveE r [1, 0] = some (.atom "a")) :=
  moveExprInTree_amended.2.2 _ _ _ _ _ (.atom "a") (.atom "d")
    (by decide) rfl rfl (by simp) (by intro h; simp at h)
    (by simp) (by simp) (by intro t ht; simp at ht; rcases ht with rfl | rfl <;> simp)

/-! ## Evaluator: `evaluate.ts` (inside `evaluate.test.ts`, lines 110–263)
and `environments.ts`

`Cell`s are mutable boxes shared between environments, closures and the
`Defines` table; they are modelled as addresses into `EvalState.heap`.
An `Environment` is a `Record<string, Binding>`; it is modelled as an
association list with *first*-match lookup, so `mergeEnvs(a, b)`
(`Object.assign({}, a, b)`, `b`'s keys winning) is `b ++ a`, and
`makeEnv` (`keyBy(bindings, name)`, later duplicates overriding while
keeping first-insertion position) is `keyByName`.

Not under `src/` and modelled from the spec:
* `value.ts` — `Value` (§3: number, boolean, string, symbol, list with
  ordered heads and optional improper tail, function = closure or
  builtin) and `valueAsBool` (§4.4: "only an explicit boolean-false value
  is falsy; all else truthy");
* `defines.ts` — `Defines` (§4.3: lazy producer per name, last
  registration wins; `get` runs the producer on first access and caches
  the Cell; a producer that transitively looks up its own not-yet-populated
  Cell finds an unpopulated Cell and fails UnboundVariable);
* `dynamic-type.ts` — `checkCallAgainstTypeSignature` (§4.4: exact arity
  unless the last parameter is variadic, then count ≥ number of fixed
  parameters; each provided argument's tag, if the parameter declares
  one, is checked);
* `expr.ts` — the `Expr` union (§3), whose kinds and fields are fixed by
  the evaluator's `switch` and the test fixtures; list literals carry
  quoted datum content, which the evaluator returns verbatim.

A builtin's native operation (`body` is a JS function) is outside the
modelled fragment: invoking it yields the designated error
`EvalErr.nativeCall`. -/

/-- A `Binding`'s runtime content: its name and the address of its
`Cell` (attributes carry no evaluation semantics and are omitted). -/
structure EnvBinding where
  name : String
  cell : Nat
  deriving Repr, DecidableEq

/-- `Environment = Record<string, Binding>`, first-match association list. -/
abbrev Env := List EnvBinding

/-- `this.env[name]`. -/
def envLookup (env : Env) (n : String) : Option EnvBinding :=
  env.find? (fun b => b.name == n)

/-- `mergeEnvs(e1, e2)`: right-biased union — `e2`'s keys win. -/
def mergeEnvs (e1 e2 : Env) : Env := e2 ++ e1

/-- One step of `keyBy`: override the entry with the same name in place,
else append. -/
def keyByStep (acc : List EnvBinding) (b : EnvBinding) : List EnvBinding :=
  if acc.any (fun x => x.name == b.name) then
    acc.map (fun x => if x.name == b.name then b else x)
  else acc ++ [b]

/-- `keyBy(bindings, (b) => b.name)`: later duplicates override, first
insertion position is kept. -/
def keyByName (bs : List EnvBinding) : List EnvBinding := bs.foldl keyByStep []

/-- `makeEnv(bindings)` from `environments.ts`. -/
def makeEnv (bs : List EnvBinding) : Env := keyByName bs

/-- An entry of the signature of a function value:
`{ name, type?, variadic? }`.  The declared type is a tag string. -/
structure SigParam where
  name : String
  type : Option String
  variadic : Bool
  deriving Repr, DecidableEq

mutual

/-- The `Expr` union consumed by `Evaluator.#eval_` (modelled from the
spec and the evaluator's `switch`; `expr.ts` is not under `src/`). -/
inductive Expr where
  | num (n : Int)
  | bool (b : Bool)
  | str (s : String)
  | sym (s : String)
  /-- A list literal: quoted datum content, returned verbatim. -/
  | listD (heads : List Value) (tail : Option Value)
  /-- The distinguished hole (`isHole(expr)` in the literal branch). -/
  | hole
  | var (id : String)
  | call (called : Expr) (args : List Expr)
  | define (name : Expr) (value : Expr)
  | letE (bindings : List (Expr × Expr)) (body : Expr)
  | letrec (bindings : List (Expr × Expr)) (body : Expr)
  | lambda (params : List Expr) (body : Expr)
  | sequence (exprs : List Expr)
  /-- `{ kind: "if", if, then, else }`. -/
  | ifE (condition thenE elseE : Expr)
  | cond
  | nameBinding (id : String)
  | typeE

/-- The runtime `Value` union (modelled from the spec; `value.ts` is not
under `src/`). -/
inductive Value where
  | num (n : Int)
  | bool (b : Bool)
  | str (s : String)
  | sym (s : String)
  | list (heads : List Value) (tail : Option Value)
  /-- `FnValue`: `{ kind: "fn", signature, body, env? }`. -/
  | fn (signature : List SigParam) (body : FnBody) (env : Option Env)

/-- A function value's body: a closure body `Expr`, or a builtin's native
operation (identified by name; its JS body is outside the model). -/
inductive FnBody where
  | expr (e : Expr)
  | native (name : String)

end

/-- `valueAsBool` — modelled from the spec (§4.4): only an explicit
boolean `false` is falsy. -/
def valueAsBool : Value → Bool
  | .bool false => false
  | _ => true

/-- The tag of a value, for signature checking — modelled from the
spec's built-in tags (§3). -/
def valueTag : Value → String
  | .num _ => "Number"
  | .bool _ => "Boolean"
  | .str _ => "String"
  | .sym _ => "Symbol"
  | .list _ _ => "List"
  | .fn _ _ _ => "Function"

/-- A state of the `Defines` table entry for one name — modelled from the
spec (§4.3): a not-yet-run producer (`thunk`, holding the registered
`define`'s value expression), a producer currently running whose Cell is
pre-allocated but unpopulated (`forcing`), or the cached populated Cell
(`cached`). -/
inductive DefEntry where
  | thunk (value : Expr)
  | forcing (cell : Nat)
  | cached (cell : Nat)

/-- The `Defines` table; the most recent entry for a name wins
(`add` overwrites: last registration wins). -/
abbrev Defines := List (String × DefEntry)

/-- The mutable state of an `Evaluator` instance plus the cell heap:
`baseEnv` and `defines` are constructor fields, `env` is the ambient
environment field (unassigned before the first `eval`, modelled as the
empty environment). -/
structure EvalState where
  heap : List (Option Value)
  defines : Defines
  baseEnv : Env
  env : Env

/-- Allocate a fresh `Cell` with the given content. -/
def allocCell (st : EvalState) (v : Option Value) : Nat × EvalState :=
  (st.heap.length, { st with heap := st.heap ++ [v] })

/-- Read a `Cell`'s content (`cell.value`; `none` = empty cell). -/
def heapRead (st : EvalState) (a : Nat) : Option Value :=
  match st.heap[a]? with
  | some c => c
  | none => none

/-- `cell.value = v`. -/
def heapWrite (st : EvalState) (a : Nat) (v : Value) : EvalState :=
  { st with heap := st.heap.set a (some v) }

/-- Errors thrown by the evaluator, by source message:
`"evaluating hole as expression"`, `"unbound variable: " + id`,
`"cannot call non-function"`, `"'define' must be given a name"`,
`"TODO"` (cond / name-binding / type); `arityMismatch`/`typeMismatch`
come from the spec-modelled `checkCallAgainstTypeSignature`;
`nativeCall` marks invocation of an unmodelled builtin body and
`outOfFuel` is an artifact of the fuel-indexed embedding. -/
inductive EvalErr where
  | holeEvaluated
  | unboundVariable (name : String)
  | notCallable
  | defineNeedsName
  | notImplemented
  | arityMismatch
  | typeMismatch
  | nativeCall (name : String)
  | outOfFuel
  deriving Repr, DecidableEq

/-- The result of an evaluation step: a value and the state, or a thrown
error (heap/defines mutations made before a throw are not observable by
the claims settled here, so the state at a throw is not tracked). -/
abbrev Res := Except EvalErr (Value × EvalState)

/-- `(name as NameBinding).id`: the source casts without checking; for a
non-name-binding the JS access yields `undefined`, modelled by a
sentinel name. -/
def bindingId : Expr → String
  | .nameBinding id => id
  | _ => "undefined"

/-- `Evaluator.#eval(expr, { env?, extendEnv? })` (lines 124–133),
parameterized over the inner evaluator `ev` (`#eval_`): saves `this.env`,
installs `mergeEnvs(this.baseEnv, env)` and/or `mergeEnvs(this.env,
extendEnv)`, runs `ev`, and restores the saved environment on normal
return (a throw propagates without restoring). -/
def evalWith (ev : EvalState → Expr → Res) (st : EvalState) (e : Expr)
    (envOpt extendOpt : Option Env) : Res :=
  let prevEnv := st.env
  let st1 := match envOpt with
    | some env => { st with env := mergeEnvs st.baseEnv env }
    | none => st
  let st2 := match extendOpt with
    | some ext => { st1 with env := mergeEnvs st1.env ext }
    | none => st1
  match ev st2 e with
  | .ok (v, st3) => .ok (v, { st3 with env := prevEnv })
  | .error err => .error err

/-- `Defines.get(name)` composed into `Evaluator.#get` (lines 260–263):
`this.env[name]?.cell ?? this.defines.get(name)`.  The lexical
environment is consulted first; only when the name is absent there is
the `Defines` table consulted, which may force a registered producer
(evaluating the stored expression with the evaluator's current
environment, as the producer closure does). -/
def getCellWith (ev : EvalState → Expr → Res) (st : EvalState) (name : String) :
    Except EvalErr (Option (Nat × EvalState)) :=
  match envLookup st.env name with
  | some b => .ok (some (b.cell, st))
  | none =>
    match st.defines.lookup name with
    | none => .ok none
    | some (.cached a) => .ok (some (a, st))
    | some (.forcing a) => .ok (some (a, st))
    | some (.thunk e) =>
        let (a, st1) := allocCell st none
        let st2 := { st1 with defines := (name, .forcing a) :: st1.defines }
        match evalWith ev st2 e none none with
        | .ok (v, st3) =>
            let st4 := heapWrite st3 a v
            .ok (some (a, { st4 with defines := (name, .cached a) :: st4.defines }))
        | .error err => .error err

/-- The per-argument tag test of `checkCallAgainstTypeSignature`:
a declared parameter tag must equal the argument value's tag. -/
def tagOk (p : SigParam) (a : Value) : Bool :=
  match p.type with
  | some tag => valueTag a == tag
  | none => true

/-- Check each provided argument against its parameter (the last
parameter covering all trailing arguments when it is variadic);
`i` is the index of the first argument of `l` in the full list. -/
def checkArgs (sig : List SigParam) : Nat → List Value → Option EvalErr
  | _, [] => none
  | i, a :: rest =>
      match sig[min i (sig.length - 1)]? with
      | some p => if tagOk p a then checkArgs sig (i + 1) rest else some .typeMismatch
      | none => checkArgs sig (i + 1) rest

/-- `checkCallAgainstTypeSignature(args, signature)` — modelled from the
spec (§4.4), `dynamic-type.ts` not being under `src/`: exact argument
count unless the signature's last parameter is variadic (then count ≥
the number of fixed parameters); each provided argument's tag, if its
parameter declares one, is checked. -/
def checkCallAgainstTypeSignature (args : List Value) (sig : List SigParam) :
    Option EvalErr :=
  let variadic := match sig.getLast? with
    | some p => p.variadic
    | none => false
  let fixedCount := if variadic then sig.length - 1 else sig.length
  if variadic then
    if args.length < fixedCount then some .arityMismatch
    else checkArgs sig 0 args
  else
    if args.length ≠ sig.length then some .arityMismatch
    else checkArgs sig 0 args

/-- The parameter-binding loop of `Evaluator.call` (lines 236–247):
`for (i = 0; i < args.length && i < fn.signature.length; ++i)` — each
iteration allocates a fresh populated `Cell` and merges the single
binding over the accumulated call environment (the later binding
winning).  Arguments beyond the signature length are never bound. -/
def bindParams (st : EvalState) (callEnv : Env) :
    List SigParam → List Value → Env × EvalState
  | [], _ => (callEnv, st)
  | _, [] => (callEnv, st)
  | p :: sig, a :: args =>
      let (addr, st1) := allocCell st (some a)
      bindParams st1 (mergeEnvs callEnv [⟨p.name, addr⟩]) sig args

/-- `Evaluator.call(fn, args)` (lines 233–258), parameterized over the
inner evaluator: validate the signature, build the call environment over
`fn.env ?? {}`, then either evaluate the closure body with
`#eval(fn.body, { env: callEnv })` or invoke the builtin's native
operation (outside the model: `EvalErr.nativeCall`). -/
def callWith (ev : EvalState → Expr → Res) (st : EvalState)
    (sig : List SigParam) (body : FnBody) (env : Option Env)
    (args : List Value) : Res :=
  match checkCallAgainstTypeSignature args sig with
  | some err => .error err
  | none =>
      let (callEnv, st1) := bindParams st (env.getD []) sig args
      match body with
      | .expr e => evalWith ev st1 e (some callEnv) none
      | .native name => .error (.nativeCall name)

/-- `args.map((arg) => this.#eval(arg))`: left-to-right, state threaded. -/
def evalArgsWith (ev : EvalState → Expr → Res) :
    EvalState → List Expr → Except EvalErr (List Value × EvalState)
  | st, [] => .ok ([], st)
  | st, e :: es =>
      match evalWith ev st e none none with
      | .error err => .error err
      | .ok (v, st1) =>
          match evalArgsWith ev st1 es with
          | .error err => .error err
          | .ok (vs, st2) => .ok (v :: vs, st2)

/-- The `sequence` loop (lines 213–220): result starts as the empty list
and is replaced by each sub-expression's value. -/
def evalSeqWith (ev : EvalState → Expr → Res) :
    EvalState → List Expr → Res
  | st, [] => .ok (.list [] none, st)
  | st, [e] => evalWith ev st e none none
  | st, e :: es =>
      match evalWith ev st e none none with
      | .error err => .error err
      | .ok (_, st1) => evalSeqWith ev st1 es

/-- The `let` binding pass (lines 174–179): each value expression is
evaluated with `this.#eval(value)` — in the current (outer) environment —
and put in a fresh populated `Cell`. -/
def evalLetBindings (ev : EvalState → Expr → Res) :
    EvalState → List (Expr × Expr) → Except EvalErr (List EnvBinding × EvalState)
  | st, [] => .ok ([], st)
  | st, (name, value) :: rest =>
      match evalWith ev st value none none with
      | .error err => .error err
      | .ok (v, st1) =>
          let (a, st2) := allocCell st1 (some v)
          match evalLetBindings ev st2 rest with
          | .error err => .error err
          | .ok (bs, st3) => .ok (⟨bindingId name, a⟩ :: bs, st3)

/-- The `letrec` pre-allocation (lines 185–193): one empty `Cell` per
binding, in order (before `keyBy` collapses duplicate names). -/
def allocLetrecCells : EvalState → List (Expr × Expr) →
    List EnvBinding × EvalState
  | st, [] => ([], st)
  | st, (name, _) :: rest =>
      let (a, st1) := allocCell st none
      let (bs, st2) := allocLetrecCells st1 rest
      (⟨bindingId name, a⟩ :: bs, st2)

/-- The `letrec` population loop (lines 195–197): each value expression
is evaluated with `this.#eval(value)` — in the current environment, which
does **not** contain the pre-allocated sibling cells — and written into
the keyed binding's cell. -/
def letrecPopulate (ev : EvalState → Expr → Res) (keyed : List EnvBinding) :
    EvalState → List (Expr × Expr) → Except EvalErr EvalState
  | st, [] => .ok st
  | st, (name, value) :: rest =>
      match evalWith ev st value none none with
      | .error err => .error err
      | .ok (v, st1) =>
          let st2 := match envLookup keyed (bindingId name) with
            | some b => heapWrite st1 b.cell v
            | none => st1
          letrecPopulate ev keyed st2 rest

/-- `Evaluator.#eval_(expr)` (lines 135–231), fuel-indexed: the fuel is
decremented at each dispatch, and every recursive `this.#eval(...)` /
`this.call(...)` / `this.#get(...)` goes through the corresponding
helper at the decremented fuel. -/
def evalCore : Nat → EvalState → Expr → Res
  | 0, _, _ => .error .outOfFuel
  | Nat.succ f, st, e =>
    match e with
    | .num n => .ok (.num n, st)
    | .bool b => .ok (.bool b, st)
    | .str s => .ok (.str s, st)
    | .sym s => .ok (.sym s, st)
    | .listD hs t => .ok (.list hs t, st)
    | .hole => .error .holeEvaluated
    | .var id =>
        match getCellWith (evalCore f) st id with
        | .error err => .error err
        | .ok none => .error (.unboundVariable id)
        | .ok (some (a, st1)) =>
            match heapRead st1 a with
            | some v => .ok (v, st1)
            | none => .error (.unboundVariable id)
    | .call called args =>
        match evalWith (evalCore f) st called none none with
        | .error err => .error err
        | .ok (cv, st1) =>
            match cv with
            | .fn sig body env =>
                match evalArgsWith (evalCore f) st1 args with
                | .error err => .error err
                | .ok (argVals, st2) => callWith (evalCore f) st2 sig body env argVals
            | _ => .error .notCallable
    | .define name value =>
        match name with
        | .nameBinding id =>
            .ok (.list [] none, { st with defines := (id, .thunk value) :: st.defines })
        | _ => .error .defineNeedsName
    | .letE bindings body =>
        match evalLetBindings (evalCore f) st bindings with
        | .error err => .error err
        | .ok (bs, st1) => evalWith (evalCore f) st1 body none (some (makeEnv bs))
    | .letrec bindings body =>
        let (bs, st1) := allocLetrecCells st bindings
        let keyed := keyByName bs
        match letrecPopulate (evalCore f) keyed st1 bindings with
        | .error err => .error err
        | .ok st2 => evalWith (evalCore f) st2 body none (some (makeEnv keyed))
    | .lambda params body =>
        .ok (.fn (params.map fun p => ⟨bindingId p, none, false⟩) (.expr body)
          (some st.env), st)
    | .sequence exprs => evalSeqWith (evalCore f) st exprs
    | .ifE c t e2 =>
        match evalWith (evalCore f) st c none none with
        | .error err => .error err
        | .ok (cv, st1) =>
            evalWith (evalCore f) st1 (if valueAsBool cv then t else e2) none none
    | .cond => .error .notImplemented
    | .nameBinding _ => .error .notImplemented
    | .typeE => .error .notImplemented

/-- `Evaluator.eval(expr, env = {})` (lines 120–122): `#eval(expr, { env })`. -/
def evalTop (fuel : Nat) (st : EvalState) (e : Expr) (env : Env := []) : Res :=
  evalWith (evalCore fuel) st e (some env) none

/-- A fresh `Evaluator` with an explicitly-empty base environment
(`new Evaluator({ baseEnv: {} })`) and no defines, plus an empty heap. -/
def emptyEvaluator : EvalState := ⟨[], [], [], []⟩

/-! ### C1, C8, C10 -/

/-- C1: the `letrec` case does **not** evaluate the binding value
expressions in an environment exposing the pre-allocated sibling `Cell`s:
each value is evaluated with `this.#eval(value)` — no `extendEnv` — so the
empty cells built at lines 185–193 are unreachable while the values run
(only the *body* gets them, line 199).  Consequently (first conjunct)
`letrec`-bound closures that reference a sibling only inside a lambda body
capture an environment without the sibling and fail `UnboundVariable`
when called, where the claim requires success; and (second conjunct) even
a direct reference to an already-populated sibling fails, where the claim
("in order", cells exposed) requires the populated value.  The third
conjunct shows the cells are indeed populated and exposed to the *body*,
confirming the pre-allocation is live only there. -/
theorem letrec_siblings_not_in_scope_bug :
    evalTop 100 emptyEvaluator
      (.letrec [(.nameBinding "f", .lambda [] (.call (.var "g") [])),
                (.nameBinding "g", .lambda [] (.num 1))]
        (.call (.var "f") [])) = .error (.unboundVariable "g") ∧
    evalTop 100 emptyEvaluator
      (.letrec [(.nameBinding "a", .num 1), (.nameBinding "b", .var "a")]
        (.var "b")) = .error (.unboundVariable "a") ∧
    evalTop 100 emptyEvaluator
      (.letrec [(.nameBinding "a", .num 1)] (.var "a")) =
      .ok (.num 1, { emptyEvaluator with heap := [some (.num 1)] }) :=
  ⟨rfl, rfl, rfl⟩

/-- C10: whenever `Evaluator.#eval` returns normally, the evaluator's
ambient `env` field is restored to exactly the value it held before the
evaluation began — for *any* inner evaluation function, since the
save/restore bracket (lines 125, 131) surrounds the recursive call
unconditionally on the normal-return path.  In particular a successful
top-level `eval` (which is `#eval(expr, { env })`) leaves the stored
environment unchanged. -/
theorem evalWith_restores_env (ev : EvalState → Expr → Res) (st : EvalState)
    (e : Expr) (envOpt extendOpt : Option Env) (v : Value) (st' : EvalState)
    (h : evalWith ev st e envOpt extendOpt = .ok (v, st')) : st'.env = st.env := by
  simp only [evalWith] at h
  split at h
  case _ v2 st3 heq =>
    simp only [Except.ok.injEq, Prod.mk.injEq] at h
    obtain ⟨-, h2⟩ := h
    rw [← h2]
  case _ => exact absurd h (by simp)

/-- Witness for `evalWith_restores_env`: a call whose evaluation installs
a different environment and grows the heap, after which the ambient field
is back to its original (non-empty) value. -/
theorem evalWith_restores_env_witness :
    evalWith (evalCore 3) ⟨[], [], [], [⟨"z", 5⟩]⟩
        (.call (.lambda [.nameBinding "x"] (.var "x")) [.num 9]) (some []) none =
      .ok (.num 9, ⟨[some (.num 9)], [], [], [⟨"z", 5⟩]⟩) ∧
    (⟨[some (.num 9)], [], [], [⟨"z", 5⟩]⟩ : EvalState).env =
      (⟨[], [], [], [⟨"z", 5⟩]⟩ : EvalState).env :=
  ⟨rfl,
    evalWith_restores_env (evalCore 3) ⟨[], [], [], [⟨"z", 5⟩]⟩
      (.call (.lambda [.nameBinding "x"] (.var "x")) [.num 9]) (some []) none
      (.num 9) ⟨[some (.num 9)], [], [], [⟨"z", 5⟩]⟩ rfl⟩

/-- `#eval` never shrinks the heap, provided the inner evaluator does
not: installing and restoring environments leaves the heap alone. -/
theorem heapMono_evalWith (ev : EvalState → Expr → Res)
    (hev : ∀ (st : EvalState) (e : Expr) (v : Value) (st' : EvalState),
      ev st e = .ok (v, st') → st.heap.length ≤ st'.heap.length) :
    ∀ (st : EvalState) (e : Expr) (o1 o2 : Option Env) (v : Value)
      (st' : EvalState), evalWith ev st e o1 o2 = .ok (v, st') →
      st.heap.length ≤ st'.heap.length := by
  intro st e o1 o2 v st' h
  simp only [evalWith] at h
  split at h
  case _ v2 st3 heq =>
    simp only [Except.ok.injEq, Prod.mk.injEq] at h
    obtain ⟨-, h2⟩ := h
    have h3 := hev _ e v2 st3 heq
    rw [← h2]
    refine le_trans (le_of_eq ?_) h3
    cases o1 <;> cases o2 <;> rfl
  case _ => simp at h

/-- Argument evaluation never shrinks the heap. -/
theorem heapMono_evalArgs (ev : EvalState → Expr → Res)
    (hev : ∀ (st : EvalState) (e : Expr) (v : Value) (st' : EvalState),
      ev st e = .ok (v, st') → st.heap.length ≤ st'.heap.length) :
    ∀ (es : List Expr) (st : EvalState) (vs : List Value) (st' : EvalState),
      evalArgsWith ev st es = .ok (vs, st') →
      st.heap.length ≤ st'.heap.length := by
  intro es
  induction es with
  | nil =>
      intro st vs st' h
      simp only [evalArgsWith, Except.ok.injEq, Prod.mk.injEq] at h
      rw [← h.2]
  | cons e es ih =>
      intro st vs st' h
      simp only [evalArgsWith] at h
      split at h
      next => simp at h
      next v1 st1 heq1 =>
        split at h
        next => simp at h
        next vs2 st2 heq2 =>
          simp only [Except.ok.injEq, Prod.mk.injEq] at h
          rw [← h.2]
          exact le_trans (heapMono_evalWith ev hev st e none none v1 st1 heq1)
            (ih st1 vs2 st2 heq2)

/-- Sequence evaluation never shrinks the heap. -/
theorem heapMono_evalSeq (ev : EvalState → Expr → Res)
    (hev : ∀ (st : EvalState) (e : Expr) (v : Value) (st' : EvalState),
      ev st e = .ok (v, st') → st.heap.length ≤ st'.heap.length) :
    ∀ (es : List Expr) (st : EvalState) (v : Value) (st' : EvalState),
      evalSeqWith ev st es = .ok (v, st') →
      st.heap.length ≤ st'.heap.length := by
  intro es
  induction es with
  | nil =>
      intro st v st' h
      simp only [evalSeqWith, Except.ok.injEq, Prod.mk.injEq] at h
      rw [← h.2]
  | cons e es ih =>
      intro st v st' h
      cases es with
      | nil =>
          simp only [evalSeqWith] at h
          exact heapMono_evalWith ev hev st e none none v st' h
      | cons e2 es2 =>
          simp only [evalSeqWith] at h
          split at h
          next => simp at h
          next v1 st1 heq1 =>
            exact le_trans (heapMono_evalWith ev hev st e none none v1 st1 heq1)
              (ih st1 v st' h)

/-- `let` binding evaluation never shrinks the heap (it only appends). -/
theorem heapMono_evalLet (ev : EvalState → Expr → Res)
    (hev : ∀ (st : EvalState) (e : Expr) (v : Value) (st' : EvalState),
      ev st e = .ok (v, st') → st.heap.length ≤ st'.heap.length) :
    ∀ (bs : List (Expr × Expr)) (st : EvalState) (out : List EnvBinding)
      (st' : EvalState), evalLetBindings ev st bs = .ok (out, st') →
      st.heap.length ≤ st'.heap.length := by
  intro bs
  induction bs with
  | nil =>
      intro st out st' h
      simp only [evalLetBindings, Except.ok.injEq, Prod.mk.injEq] at h
      rw [← h.2]
  | cons b rest ih =>
      intro st out st' h
      obtain ⟨name, value⟩ := b
      simp only [evalLetBindings, allocCell] at h
      split at h
      next => simp at h
      next v st1 heq1 =>
        split at h
        next => simp at h
        next bs2 st3 heq2 =>
          simp only [Except.ok.injEq, Prod.mk.injEq] at h
          rw [← h.2]
          refine le_trans (heapMono_evalWith ev hev st value none none v st1 heq1)
            (le_trans ?_ (ih _ bs2 st3 heq2))
          simp

/-- `letrec` cell pre-allocation only appends to the heap. -/
theorem heapMono_allocLetrec :
    ∀ (bs : List (Expr × Expr)) (st : EvalState),
      st.heap.length ≤ (allocLetrecCells st bs).2.heap.length := by
  intro bs
  induction bs with
  | nil => intro st; exact le_rfl
  | cons b rest ih =>
      intro st
      obtain ⟨name, value⟩ := b
      exact le_trans (by simp) (ih { st with heap := st.heap ++ [none] })

/-- The `letrec` population loop never shrinks the heap (writes keep the
length). -/
theorem heapMono_letrecPopulate (ev : EvalState → Expr → Res)
    (hev : ∀ (st : EvalState) (e : Expr) (v : Value) (st' : EvalState),
      ev st e = .ok (v, st') → st.heap.length ≤ st'.heap.length)
    (keyed : List EnvBinding) :
    ∀ (bs : List (Expr × Expr)) (st st' : EvalState),
      letrecPopulate ev keyed st bs = .ok st' →
      st.heap.length ≤ st'.heap.length := by
  intro bs
  induction bs with
  | nil =>
      intro st st' h
      simp only [letrecPopulate, Except.ok.injEq] at h
      rw [← h]
  | cons b rest ih =>
      intro st st' h
      obtain ⟨name, value⟩ := b
      simp only [letrecPopulate] at h
      split at h
      next => simp at h
      next v st1 heq1 =>
        refine le_trans (heapMono_evalWith ev hev st value none none v st1 heq1)
          (le_trans ?_ (ih _ st' h))
        split
        next b2 hb2 => simp [heapWrite]
        next => exact le_rfl

/-- Parameter binding only appends to the heap. -/
theorem heapMono_bindParams :
    ∀ (sig : List SigParam) (args : List Value) (st : EvalState) (env0 : Env),
      st.heap.length ≤ (bindParams st env0 sig args).2.heap.length := by
  intro sig
  induction sig with
  | nil => intro args st env0; cases args <;> exact le_rfl
  | cons p sig ih =>
      intro args st env0
      cases args with
      | nil => exact le_rfl
      | cons a args =>
          exact le_trans (by simp)
            (ih args { st with heap := st.heap ++ [some a] }
              (mergeEnvs env0 [⟨p.name, st.heap.length⟩]))

/-- `#get` never shrinks the heap when it yields a cell. -/
theorem heapMono_getCellWith (ev : EvalState → Expr → Res)
    (hev : ∀ (st : EvalState) (e : Expr) (v : Value) (st' : EvalState),
      ev st e = .ok (v, st') → st.heap.length ≤ st'.heap.length) :
    ∀ (st : EvalState) (n : String) (a : Nat) (st' : EvalState),
      getCellWith ev st n = .ok (some (a, st')) →
      st.heap.length ≤ st'.heap.length := by
  intro st n a st' h
  simp only [getCellWith, allocCell] at h
  split at h
  next b hb =>
      simp only [Except.ok.injEq, Option.some.injEq, Prod.mk.injEq] at h
      rw [← h.2]
  next henv =>
      split at h
      next => simp at h
      next a2 =>
          simp only [Except.ok.injEq, Option.some.injEq, Prod.mk.injEq] at h
          rw [← h.2]
      next a2 =>
          simp only [Except.ok.injEq, Option.some.injEq, Prod.mk.injEq] at h
          rw [← h.2]
      next e2 hdef =>
          split at h
          next v2 st3 heq =>
              simp only [Except.ok.injEq, Option.some.injEq, Prod.mk.injEq] at h
              obtain ⟨-, h2⟩ := h
              have hlen : st'.heap.length = st3.heap.length := by
                rw [← h2]; simp [heapWrite]
              rw [hlen]
              refine le_trans ?_ (heapMono_evalWith ev hev _ e2 none none v2 st3 heq)
              simp
          next => simp at h

/-- `Evaluator.call` never shrinks the heap. -/
theorem heapMono_callWith (ev : EvalState → Expr → Res)
    (hev : ∀ (st : EvalState) (e : Expr) (v : Value) (st' : EvalState),
      ev st e = .ok (v, st') → st.heap.length ≤ st'.heap.length) :
    ∀ (st : EvalState) (sig : List SigParam) (body : FnBody) (env : Option Env)
      (args : List Value) (v : Value) (st' : EvalState),
      callWith ev st sig body env args = .ok (v, st') →
      st.heap.length ≤ st'.heap.length := by
  intro st sig body env args v st' h
  simp only [callWith] at h
  split at h
  next => simp at h
  next hchk =>
      cases body with
      | native name => simp at h
      | expr e =>
          have h2 : evalWith ev (bindParams st (env.getD []) sig args).2 e
              (some (bindParams st (env.getD []) sig args).1) none =
              .ok (v, st') := h
          exact le_trans (heapMono_bindParams sig args st (env.getD []))
            (heapMono_evalWith ev hev _ e _ none v st' h2)

/-- The heap never shrinks across evaluation: `evalCore` only appends
cells (`allocCell`) or overwrites existing ones (`heapWrite`). -/
theorem heapMono_evalCore :
    ∀ (f : Nat) (st : EvalState) (e : Expr) (v : Value) (st' : EvalState),
      evalCore f st e = .ok (v, st') → st.heap.length ≤ st'.heap.length := by
  intro f
  induction f with
  | zero => intro st e v st' h; simp [evalCore] at h
  | succ f ih =>
      intro st e v st' h
      cases e with
      | num n =>
          simp only [evalCore, Except.ok.injEq, Prod.mk.injEq] at h
          rw [← h.2]
      | bool b =>
          simp only [evalCore, Except.ok.injEq, Prod.mk.injEq] at h
          rw [← h.2]
      | str s =>
          simp only [evalCore, Except.ok.injEq, Prod.mk.injEq] at h
          rw [← h.2]
      | sym s =>
          simp only [evalCore, Except.ok.injEq, Prod.mk.injEq] at h
          rw [← h.2]
      | listD hs t =>
          simp only [evalCore, Except.ok.injEq, Prod.mk.injEq] at h
          rw [← h.2]
      | hole => simp [evalCore] at h
      | var id =>
          simp only [evalCore] at h
          split at h <;> try exact absurd h (by simp)
          rename_i a st1 heq
          split at h <;> try simp at h
          rw [← h.2]
          exact heapMono_getCellWith (evalCore f) ih st id a st1 heq
      | call called args =>
          simp only [evalCore] at h
          split at h <;> try exact absurd h (by simp)
          rename_i cv st1 heq1
          split at h <;> try exact absurd h (by simp)
          rename_i sig body env
          split at h <;> try exact absurd h (by simp)
          rename_i argVals st2 heq2
          exact le_trans
            (heapMono_evalWith (evalCore f) ih st called none none _ st1 heq1)
            (le_trans (heapMono_evalArgs (evalCore f) ih args st1 argVals st2 heq2)
              (heapMono_callWith (evalCore f) ih st2 sig body env argVals v st' h))
      | define name value =>
          cases name
          case nameBinding id =>
              simp only [evalCore, Except.ok.injEq, Prod.mk.injEq] at h
              rw [← h.2]
          all_goals simp [evalCore] at h
      | letE bindings body =>
          simp only [evalCore] at h
          split at h <;> try exact absurd h (by simp)
          rename_i bs st1 heq
          exact le_trans (heapMono_evalLet (evalCore f) ih bindings st bs st1 heq)
            (heapMono_evalWith (evalCore f) ih st1 body none (some (makeEnv bs))
              v st' h)
      | letrec bindings body =>
          simp only [evalCore] at h
          split at h <;> try exact absurd h (by simp)
          rename_i st2 heq
          exact le_trans (heapMono_allocLetrec bindings st)
            (le_trans
              (heapMono_letrecPopulate (evalCore f) ih _ bindings _ st2 heq)
              (heapMono_evalWith (evalCore f) ih st2 body none _ v st' h))
      | lambda params body =>
          simp only [evalCore, Except.ok.injEq, Prod.mk.injEq] at h
          rw [← h.2]
      | sequence exprs =>
          simp only [evalCore] at h
          exact heapMono_evalSeq (evalCore f) ih exprs st v st' h
      | ifE c t e2 =>
          simp only [evalCore] at h
          split at h <;> try exact absurd h (by simp)
          rename_i cv st1 heq
          exact le_trans (heapMono_evalWith (evalCore f) ih st c none none cv st1 heq)
            (heapMono_evalWith (evalCore f) ih st1 _ none none v st' h)
      | cond => simp [evalCore] at h
      | nameBinding id => simp [evalCore] at h
      | typeE => simp [evalCore] at h

/-- C8: evaluating a `var` expression looks the name up first in the
merged lexical environment (`this.env[name]?.cell`) and only then in
`Defines` — when a lexical binding exists, the result is determined
entirely by that binding's cell, the `Defines` table is not consulted,
and the state is unchanged: a populated cell yields its value, an
unpopulated cell (letrec-style, before initialization) fails
`UnboundVariable` even if `Defines` could have answered.  When the name
is absent from the lexical environment: with no `Defines` entry the
evaluation fails `UnboundVariable`; an entry currently being forced
whose pre-allocated cell is still empty (a define-cycle before
initialization) fails `UnboundVariable`; a cached entry whose cell is
populated returns that cell's value with the state unchanged, and a
cached entry whose cell is empty fails `UnboundVariable`; and a
registered producer not yet forced is forced — a fresh empty cell is
allocated, the entry is marked as being forced, the stored expression is
evaluated, and on success the produced value is written into the cell,
the entry is marked cached, and that value is returned. -/
theorem var_lookup_spec (f : Nat) (st : EvalState) (n : String) :
    (∀ b : EnvBinding, envLookup st.env n = some b →
      evalCore (f + 1) st (.var n) =
        match heapRead st b.cell with
        | some v => .ok (v, st)
        | none => .error (.unboundVariable n)) ∧
    (envLookup st.env n = none → st.defines.lookup n = none →
      evalCore (f + 1) st (.var n) = .error (.unboundVariable n)) ∧
    (∀ a : Nat, envLookup st.env n = none →
      st.defines.lookup n = some (.forcing a) → heapRead st a = none →
      evalCore (f + 1) st (.var n) = .error (.unboundVariable n)) ∧
    (∀ (a : Nat) (v : Value), envLookup st.env n = none →
      st.defines.lookup n = some (.cached a) → heapRead st a = some v →
      evalCore (f + 1) st (.var n) = .ok (v, st)) ∧
    (∀ a : Nat, envLookup st.env n = none →
      st.defines.lookup n = some (.cached a) → heapRead st a = none →
      evalCore (f + 1) st (.var n) = .error (.unboundVariable n)) ∧
    (∀ (e : Expr) (v : Value) (st3 : EvalState), envLookup st.env n = none →
      st.defines.lookup n = some (.thunk e) →
      evalWith (evalCore f)
        { st with heap := st.heap ++ [none],
                  defines := (n, .forcing st.heap.length) :: st.defines }
        e none none = .ok (v, st3) →
      evalCore (f + 1) st (.var n) =
        .ok (v, { heapWrite st3 st.heap.length v with
          defines := (n, .cached st.heap.length) ::
            (heapWrite st3 st.heap.length v).defines })) := by
  refine ⟨?_, ?_, ?_, ?_, ?_, ?_⟩
  · intro b hb
    simp only [evalCore, getCellWith, hb]
  · intro henv hdef
    simp only [evalCore, getCellWith, henv, hdef]
  · intro a henv hdef hheap
    simp only [evalCore, getCellWith, henv, hdef, hheap]
  · intro a v henv hdef hheap
    simp only [evalCore, getCellWith, henv, hdef, hheap]
  · intro a henv hdef hheap
    simp only [evalCore, getCellWith, henv, hdef, hheap]
  · intro e v st3 henv hdef hforce
    have h3 := heapMono_evalWith (evalCore f) (heapMono_evalCore f) _ e none none
      v st3 hforce
    have ha : st.heap.length < st3.heap.length := by
      simp only [List.length_append, List.length_cons, List.length_nil] at h3
      omega
    have hread : heapRead
        { heapWrite st3 st.heap.length v with
          defines := (n, .cached st.heap.length) ::
            (heapWrite st3 st.heap.length v).defines } st.heap.length = some v := by
      simp only [heapRead, heapWrite]
      rw [List.getElem?_set_self ha]
    simp only [evalCore, getCellWith, allocCell, henv, hdef, hforce, hread]

/-- Witness for `var_lookup_spec`: a populated lexical binding returns
its value (with a populated `Defines` cell for the same name shadowed);
an unpopulated lexical binding fails although the `Defines` table holds
a populated cell for the name; a cached `Defines` cell, with the name
absent lexically, returns its value with the state untouched; and a
registered producer is forced on first use — looking `d` up evaluates
the stored `7` into a fresh cell, marks the entry cached, and returns
`num 7`. -/
theorem var_lookup_spec_witness :
    evalCore 1 ⟨[some (.num 42)], [("x", .cached 0)], [], [⟨"x", 0⟩]⟩ (.var "x") =
      .ok (.num 42, ⟨[some (.num 42)], [("x", .cached 0)], [], [⟨"x", 0⟩]⟩) ∧
    evalCore 1 ⟨[none, some (.num 7)], [("y", .cached 1)], [], [⟨"y", 0⟩]⟩ (.var "y") =
      .error (.unboundVariable "y") ∧
    evalCore 1 ⟨[some (.num 5)], [("z", .cached 0)], [], []⟩ (.var "z") =
      .ok (.num 5, ⟨[some (.num 5)], [("z", .cached 0)], [], []⟩) ∧
    evalCore 2 ⟨[], [("d", .thunk (.num 7))], [], []⟩ (.var "d") =
      .ok (.num 7, ⟨[some (.num 7)],
        [("d", .cached 0), ("d", .forcing 0), ("d", .thunk (.num 7))], [], []⟩) :=
  ⟨(var_lookup_spec 0 ⟨[some (.num 42)], [("x", .cached 0)], [], [⟨"x", 0⟩]⟩ "x").1
      ⟨"x", 0⟩ rfl,
   (var_lookup_spec 0 ⟨[none, some (.num 7)], [("y", .cached 1)], [], [⟨"y", 0⟩]⟩ "y").1
      ⟨"y", 0⟩ rfl,
   (var_lookup_spec 0 ⟨[some (.num 5)], [("z", .cached 0)], [], []⟩ "z").2.2.2.1
      0 (.num 5) rfl rfl rfl,
   (var_lookup_spec 1 ⟨[], [("d", .thunk (.num 7))], [], []⟩ "d").2.2.2.2.2
      (.num 7) (.num 7) ⟨[none], [("d", .forcing 0), ("d", .thunk (.num 7))], [], []⟩
      rfl rfl rfl⟩

/-! ### C7 -/

/-- C7 (counterexample): calling an interpreted closure whose single
signature parameter is variadic with two arguments binds the parameter to
the *first* argument alone; the body `x` returns `num 1`, not a
collection containing both arguments — the extra argument is dropped from
the call environment (the binding loop runs `i < args.length && i <
fn.signature.length`), so no "trailing collection" is available to the
variadic parameter, contrary to the claim. -/
theorem callWith_variadic_counterexample :
    callWith (evalCore 2) emptyEvaluator [⟨"x", none, true⟩] (.expr (.var "x"))
        (some []) [.num 1, .num 2] =
      .ok (.num 1, ⟨[some (.num 1)], [], [], []⟩) ∧
    (∀ (hs : List Value) (t : Option Value), (Value.num 1) ≠ .list hs t) := by
  refine ⟨rfl, ?_⟩
  intro hs t h
  exact Value.noConfusion h

/-- Truncating the argument list to the signature length does not change
the parameter-binding loop: it stops at the shorter of the two lists. -/
theorem bindParams_take : ∀ (sig : List SigParam) (args : List Value)
    (st : EvalState) (e : Env),
    bindParams st e sig args = bindParams st e sig (args.take sig.length) := by
  intro sig
  induction sig with
  | nil => intro args st e; cases args <;> rfl
  | cons p sig ih =>
    intro args st e
    cases args with
    | nil => rfl
    | cons a args =>
      simp only [List.length_cons, List.take_succ_cons, bindParams]
      exact ih args _ _

/-- `checkArgs` splits over list concatenation. -/
theorem checkArgs_append (sig : List SigParam) :
    ∀ (l1 l2 : List Value) (i : Nat),
      checkArgs sig i (l1 ++ l2) =
        match checkArgs sig i l1 with
        | some err => some err
        | none => checkArgs sig (i + l1.length) l2 := by
  intro l1
  induction l1 with
  | nil =>
    intro l2 i
    simp [checkArgs]
  | cons a l1 ih =>
    intro l2 i
    have harith : i + (a :: l1).length = i + 1 + l1.length := by
      simp only [List.length_cons]
      omega
    rw [List.cons_append, checkArgs, checkArgs, harith]
    split
    case _ p hp =>
      by_cases ht : tagOk p a = true
      · rw [if_pos ht, if_pos ht, ih]
      · rw [if_neg ht, if_neg ht]
    case _ hp =>
      rw [ih]

/-- All arguments checked at or past the last signature index are checked
against the last parameter; they pass when their tags do. -/
theorem checkArgs_last_ok (sig : List SigParam) (p : SigParam)
    (hp : sig.getLast? = some p) :
    ∀ (l : List Value) (i : Nat), sig.length - 1 ≤ i →
      (∀ a ∈ l, tagOk p a = true) → checkArgs sig i l = none := by
  have hidx : sig[sig.length - 1]? = some p := by
    rw [← List.getLast?_eq_getElem?]
    exact hp
  intro l
  induction l with
  | nil => intro i _ _; rfl
  | cons a l ih =>
    intro i hi hall
    rw [checkArgs]
    have hmin : min i (sig.length - 1) = sig.length - 1 := by omega
    rw [hmin, hidx]
    simp only [hall a (List.mem_cons_self a l), if_true]
    exact ih (i + 1) (by omega) (fun b hb => hall b (List.mem_cons_of_mem _ hb))

/-- The binding loop only appends fresh cells to the heap; the other
state fields are untouched. -/
theorem bindParams_state : ∀ (sig : List SigParam) (args : List Value)
    (st : EvalState) (e : Env),
    ∃ ext, (bindParams st e sig args).2 = { st with heap := st.heap ++ ext } := by
  intro sig
  induction sig with
  | nil =>
    intro args st e
    exact ⟨[], by simp [bindParams]⟩
  | cons p sig ih =>
    intro args st e
    cases args with
    | nil => exact ⟨[], by simp [bindParams]⟩
    | cons a args =>
      obtain ⟨ext, hext⟩ :=
        ih args { st with heap := st.heap ++ [some a] }
          (mergeEnvs e [⟨p.name, st.heap.length⟩])
      refine ⟨[some a] ++ ext, ?_⟩
      simp only [bindParams, allocCell]
      rw [hext]
      simp [List.append_assoc]

/-- A name not bound by the signature resolves in the built call
environment exactly as in the base environment. -/
theorem bindParams_lookup_notmem : ∀ (sig : List SigParam) (args : List Value)
    (st : EvalState) (e : Env) (n : String), n ∉ sig.map SigParam.name →
    envLookup (bindParams st e sig args).1 n = envLookup e n := by
  intro sig
  induction sig with
  | nil => intro args st e n _; cases args <;> rfl
  | cons p sig ih =>
    intro args st e n hn
    simp only [List.map_cons, List.mem_cons, not_or] at hn
    cases args with
    | nil => rfl
    | cons a args =>
      simp only [bindParams, allocCell]
      rw [ih args _ _ n hn.2]
      unfold mergeEnvs envLookup
      rw [List.singleton_append,
        List.find?_cons_of_neg _ (by
          simp only [beq_iff_eq]
          exact fun h => hn.1 h.symm)]

/-- Positional binding: the `j`-th signature parameter (names distinct)
is bound in the built call environment to a fresh populated cell holding
the `j`-th argument. -/
theorem bindParams_get : ∀ (sig : List SigParam) (args : List Value)
    (st : EvalState) (e : Env) (j : Nat) (hj : j < sig.length)
    (hj2 : j < args.length), (sig.map SigParam.name).Nodup →
    ∃ addr,
      envLookup (bindParams st e sig args).1 (sig.get ⟨j, hj⟩).name =
        some ⟨(sig.get ⟨j, hj⟩).name, addr⟩ ∧
      heapRead (bindParams st e sig args).2 addr = some (args.get ⟨j, hj2⟩) := by
  intro sig
  induction sig with
  | nil =>
    intro args st e j hj
    exact absurd hj (by simp)
  | cons p sig ih =>
    intro args st e j hj hj2 hnd
    cases args with
    | nil => simp at hj2
    | cons a args =>
      simp only [List.map_cons, List.nodup_cons] at hnd
      cases j with
      | zero =>
        show ∃ addr,
          envLookup (bindParams st e (p :: sig) (a :: args)).1 p.name =
            some ⟨p.name, addr⟩ ∧
          heapRead (bindParams st e (p :: sig) (a :: args)).2 addr = some a
        refine ⟨st.heap.length, ?_, ?_⟩
        · simp only [bindParams, allocCell]
          rw [bindParams_lookup_notmem sig args _ _ _ hnd.1]
          unfold mergeEnvs envLookup
          rw [List.singleton_append, List.find?_cons_of_pos _ (by simp)]
        · obtain ⟨ext, hext⟩ :=
            bindParams_state sig args { st with heap := st.heap ++ [some a] }
              (mergeEnvs e [⟨p.name, st.heap.length⟩])
          simp only [bindParams, allocCell]
          rw [hext]
          simp only [heapRead, List.append_assoc]
          rw [List.getElem?_append_right (Nat.le_refl _)]
          simp
      | succ j =>
        show ∃ addr,
          envLookup (bindParams st e (p :: sig) (a :: args)).1
              (sig.get ⟨j, Nat.lt_of_succ_lt_succ hj⟩).name =
            some ⟨(sig.get ⟨j, Nat.lt_of_succ_lt_succ hj⟩).name, addr⟩ ∧
          heapRead (bindParams st e (p :: sig) (a :: args)).2 addr =
            some (args.get ⟨j, Nat.lt_of_succ_lt_succ hj2⟩)
        simp only [bindParams, allocCell]
        exact ih args _ _ j (Nat.lt_of_succ_lt_succ hj)
          (Nat.lt_of_succ_lt_succ hj2) hnd.2

/-- With a variadic last parameter and enough arguments, the signature
check reduces to the per-argument tag checks. -/
theorem checkCall_variadic_eq (sig : List SigParam) (p : SigParam)
    (args : List Value) (hlast : sig.getLast? = some p)
    (hvar : p.variadic = true) (hlen : sig.length - 1 ≤ args.length) :
    checkCallAgainstTypeSignature args sig = checkArgs sig 0 args := by
  unfold checkCallAgainstTypeSignature
  rw [hlast]
  simp [hvar, Nat.not_lt.mpr hlen]

/-- C7 (amended): for an interpreted closure whose last signature
parameter is variadic, `Evaluator.call` binds each signature parameter
(the variadic one included) positionally to the single argument at its
index, and arguments beyond the signature length are *not* bound in the
call environment — they are dropped (only a builtin's native operation
receives them, through the raw argument array).  Concretely: (1) when at
least `signature.length` arguments are supplied and the dropped ones pass
the variadic parameter's tag check, the call behaves identically to the
call with the argument list truncated to the signature length; and
(2) with pairwise-distinct parameter names and a signature check that
passes, a closure whose body is the `j`-th parameter returns exactly the
`j`-th argument. -/
theorem callWith_variadic_amended :
    (∀ (ev : EvalState → Expr → Res) (st : EvalState) (sig : List SigParam)
        (p : SigParam) (body : Expr) (env : Option Env) (args : List Value),
      sig.getLast? = some p → p.variadic = true → sig.length ≤ args.length →
      (∀ a ∈ args.drop sig.length, tagOk p a = true) →
      callWith ev st sig (.expr body) env args =
        callWith ev st sig (.expr body) env (args.take sig.length)) ∧
    (∀ (f : Nat) (st : EvalState) (sig : List SigParam) (env0 : Env)
        (args : List Value) (j : Nat) (hj : j < sig.length)
        (hlen : sig.length ≤ args.length),
      (sig.map SigParam.name).Nodup →
      checkCallAgainstTypeSignature args sig = none →
      ∃ st', callWith (evalCore (f + 1)) st sig
          (.expr (.var (sig.get ⟨j, hj⟩).name)) (some env0) args =
        .ok (args.get ⟨j, Nat.lt_of_lt_of_le hj hlen⟩, st')) := by
  constructor
  · intro ev st sig p body env args hlast hvar hlen hdrop
    have htlen : (args.take sig.length).length = sig.length := by
      rw [List.length_take]
      exact Nat.min_eq_left hlen
    have h1 : checkCallAgainstTypeSignature args sig = checkArgs sig 0 args :=
      checkCall_variadic_eq sig p args hlast hvar (by omega)
    have h2 : checkCallAgainstTypeSignature (args.take sig.length) sig =
        checkArgs sig 0 (args.take sig.length) :=
      checkCall_variadic_eq sig p (args.take sig.length) hlast hvar
        (by rw [htlen]; omega)
    have h3 : checkArgs sig 0 args = checkArgs sig 0 (args.take sig.length) := by
      conv_lhs => rw [← List.take_append_drop sig.length args]
      rw [checkArgs_append]
      rw [checkArgs_last_ok sig p hlast (args.drop sig.length)
        (0 + (args.take sig.length).length) (by rw [htlen]; omega) hdrop]
      cases checkArgs sig 0 (args.take sig.length) <;> rfl
    unfold callWith
    rw [show checkCallAgainstTypeSignature args sig =
        checkCallAgainstTypeSignature (args.take sig.length) sig from
      h1.trans (h3.trans h2.symm), bindParams_take sig args]
  · intro f st sig env0 args j hj hlen hnd hchk
    have hj2 : j < args.length := Nat.lt_of_lt_of_le hj hlen
    obtain ⟨addr, hlook, hread⟩ := bindParams_get sig args st env0 j hj hj2 hnd
    refine ⟨(bindParams st env0 sig args).2, ?_⟩
    unfold callWith
    rw [hchk]
    show evalWith (evalCore (f + 1)) (bindParams st ((some env0).getD []) sig args).2
        (.var (sig.get ⟨j, hj⟩).name)
        (some (bindParams st ((some env0).getD []) sig args).1) none = _
    simp only [Option.getD] at *
    unfold evalWith
    simp only []
    have henv : envLookup
        (mergeEnvs (bindParams st env0 sig args).2.baseEnv
          (bindParams st env0 sig args).1) (sig.get ⟨j, hj⟩).name =
        some ⟨(sig.get ⟨j, hj⟩).name, addr⟩ := by
      unfold mergeEnvs envLookup at *
      rw [List.find?_append, hlook]
      rfl
    have hstep : evalCore (f + 1)
        { (bindParams st env0 sig args).2 with
          env := mergeEnvs (bindParams st env0 sig args).2.baseEnv
            (bindParams st env0 sig args).1 }
        (.var (sig.get ⟨j, hj⟩).name) =
        .ok (args.get ⟨j, hj2⟩,
          { (bindParams st env0 sig args).2 with
            env := mergeEnvs (bindParams st env0 sig args).2.baseEnv
              (bindParams st env0 sig args).1 }) := by
      simp only [evalCore, getCellWith, henv]
      have hr : heapRead
          { (bindParams st env0 sig args).2 with
            env := mergeEnvs (bindParams st env0 sig args).2.baseEnv
              (bindParams st env0 sig args).1 } addr =
          some (args.get ⟨j, hj2⟩) := hread
      rw [hr]
    rw [hstep]

/-- Witness for `callWith_variadic_amended`: the closure of
`callWith_variadic_counterexample`, truncated: calling it with `[1, 2]`
equals calling it with `[1]`, and the positional-binding conclusion at
`j = 0` returns the first argument. -/
theorem callWith_variadic_amended_witness :
    callWith (evalCore 2) emptyEvaluator [⟨"x", none, true⟩] (.expr (.var "x"))
        (some []) [.num 1, .num 2] =
      callWith (evalCore 2) emptyEvaluator [⟨"x", none, true⟩] (.expr (.var "x"))
        (some []) ([.num 1, .num 2].take 1) ∧
    ∃ st', callWith (evalCore 2) emptyEvaluator [⟨"x", none, true⟩]
        (.expr (.var "x")) (some []) [.num 1, .num 2] = .ok (.num 1, st') :=
  ⟨callWith_variadic_amended.1 (evalCore 2) emptyEvaluator [⟨"x", none, true⟩]
      ⟨"x", none, true⟩ (.var "x") (some []) [.num 1, .num 2] rfl rfl
      (by decide) (by intro a ha; rfl),
   callWith_variadic_amended.2 1 emptyEvaluator [⟨"x", none, true⟩] []
      [.num 1, .num 2] 0 (by decide) (by decide) (by decide) rfl⟩

end Sparkground
